import Mathlib

/-!
Verification development for the SillyTavern template (macro) expansion
engine: the CST walker (`public/scripts/macros/engine/MacroCstWalker.js`),
the engine (`MacroEngine.js`), the diagnostics conventions
(`MacroDiagnostics.js`), the core macro definitions
(`public/scripts/macros/definitions/core-macros.js`), and — where the
source file is absent from the repository snapshot and only its tests and
callers exist — spec-modelled versions of the registry dispatch
(`MacroRegistry.executeMacro`) and of the lexer/parser
(`MacroParser.parseDocument`).

Text is modelled as `List Char`; offsets are inclusive character indices,
exactly as in the source.  JavaScript exceptions are modelled as
`Except MErr`; console diagnostics and the points where the walker invokes
the resolver callback or the registry invokes a handler are recorded in an
ordered event trace (`MEvent`).
-/

/-- JavaScript `text.slice(a, b)` for the non-negative in-range uses the
walker makes (start clamped, end clamped, empty when `a ≥ b`). -/
def jsSlice (t : List Char) (a b : Nat) : List Char :=
  (t.take b).drop a

/-- A lexer token as the walker sees it: `startOffset`, `endOffset`
(inclusive), `image`, and chevrotain's `isInsertedInRecovery` marker. -/
structure MacroTok where
  tokStart : Nat
  tokStop : Nat
  image : String
  recovery : Bool
deriving Repr, DecidableEq

/-- A macro CST node: `Macro.Start` token, `Macro.identifier` token, the
argument nodes (each argument is a mixed sequence of raw text tokens and
nested macro nodes), and the `Macro.End` token.  `closeTok = none` models a
missing end token; a present token with `recovery = true` models
chevrotain's recovery-inserted close. -/
inductive MacroNode where
  | mk (startTok : Option MacroTok) (identTok : Option MacroTok)
       (args : List (List MacroTok × List MacroNode))
       (closeTok : Option MacroTok)
deriving Repr

/-- An argument node: raw text tokens plus nested macro nodes. -/
def ArgNode := List MacroTok × List MacroNode

def MacroNode.startTok : MacroNode → Option MacroTok
  | .mk s _ _ _ => s

def MacroNode.identTok : MacroNode → Option MacroTok
  | .mk _ i _ _ => i

def MacroNode.args : MacroNode → List ArgNode
  | .mk _ _ a _ => a

def MacroNode.closeTok : MacroNode → Option MacroTok
  | .mk _ _ _ c => c

/-- `MacroCstWalker.#isRecoveryToken`: a token is a recovery token when it
is absent (undefined offsets) or carries the recovery marker. -/
def isRecoveryToken : Option MacroTok → Bool
  | none => true
  | some t => t.recovery

/-- `MacroCstWalker.#getMacroRange`: the range spanned by the start/end
tokens, with `(0, 0)` as the final fallback of the source. -/
def getMacroRange (m : MacroNode) : Nat × Nat :=
  match m.startTok, m.closeTok with
  | some s, some e => (s.tokStart, e.tokStop)
  | _, _ => (0, 0)

/-- Chevrotain's computed node location, as consumed by
`#getArgumentLocation`: present for nodes with a real start and a real
(non-recovery) end token. -/
def nodeLocation (m : MacroNode) : Option (Nat × Nat) :=
  match m.startTok, m.closeTok with
  | some s, some e => if e.recovery then none else some (s.tokStart, e.tokStop)
  | _, _ => none

/-- `MacroCstWalker.#getArgumentLocation`: minimum/maximum offsets over all
child tokens and (located) nested macro nodes of an argument node. -/
def getArgumentLocation (a : ArgNode) : Option (Nat × Nat) :=
  let tokRanges := a.1.map (fun t => (t.tokStart, t.tokStop))
  let nodeRanges := a.2.filterMap nodeLocation
  let ranges := tokRanges ++ nodeRanges
  match ranges with
  | [] => none
  | r :: rs =>
    some (rs.foldl (fun acc p => (min acc.1 p.1, max acc.2 p.2)) r)

/-- A document item as collected by `#collectDocumentItems`: a plaintext
token or a macro node, each with its offset range. -/
inductive DocItem where
  | plaintext (startOffset stopOffset : Nat) (tok : MacroTok)
  | macroItem (startOffset stopOffset : Nat) (node : MacroNode)
deriving Repr

def DocItem.startOffset : DocItem → Nat
  | .plaintext s _ _ => s
  | .macroItem s _ _ => s

def DocItem.stopOffset : DocItem → Nat
  | .plaintext _ e _ => e
  | .macroItem _ e _ => e

def DocItem.isMacroItem : DocItem → Bool
  | .plaintext _ _ _ => false
  | .macroItem _ _ _ => true

/-- The item comparator of `#collectDocumentItems`: ascending by start
offset, ties broken by end offset. -/
def itemLe (a b : DocItem) : Bool :=
  a.startOffset < b.startOffset ||
    (a.startOffset == b.startOffset && a.stopOffset ≤ b.stopOffset)

/-- The comparator as a decidable relation (a stable sort with it matches
the stable JavaScript `Array.prototype.sort`). -/
def ItemLeR (a b : DocItem) : Prop := itemLe a b = true

instance : DecidableRel ItemLeR := fun a b => by
  unfold ItemLeR
  exact inferInstance

/-! ## Errors, events, environment, definitions -/

/-- A thrown JavaScript error as classified by the engine
(`MacroDiagnostics.createMacroRuntimeError` tags runtime errors with
`name = 'MacroRuntimeError'` and `isMacroRuntimeError = true`). -/
structure MErr where
  errName : String
  isMacroRuntimeError : Bool
  msg : String
deriving Repr, DecidableEq

/-- One observable event of an evaluation, in order:
`warn` = `logMacroRuntimeWarning` (console.warn),
`err` = `logMacroInternalError` (console.error),
`run` = the registry invokes a definition's handler,
`resolve` = the walker invokes the resolver callback for an invocation. -/
inductive MEvent where
  | warn (macroName msg : String)
  | err (macroName msg : String)
  | run (macroName : String)
  | resolve (macroName : String) (startOffset stopOffset : Nat)
deriving Repr, DecidableEq

def MEvent.isResolve : MEvent → Bool
  | .resolve _ _ _ => true
  | _ => false

def MEvent.isWarn : MEvent → Bool
  | .warn _ _ => true
  | _ => false

def MEvent.isRun : MEvent → Bool
  | .run _ => true
  | _ => false

/-- A dynamic macro implementation from `env.dynamicMacros`: either a plain
value or a callable (`typeof impl === 'function'`). -/
inductive DynImpl where
  | value (v : List Char)
  | func (f : Unit → Except MErr (List Char))

/-- The environment threaded through one evaluation (the fields the core
engine reads: names for the name macros, `dynamicMacros`, and
`functions.postProcess`). -/
structure MacroEnv where
  names_user : List Char
  names_char : List Char
  dynamicMacros : List (String × DynImpl)
  postProcess : List Char → Except MErr (List Char)

/-- The context handed to a definition handler
(`handler({unnamedArgs, list, env, call, range, normalize})`). -/
structure HandlerCtx where
  unnamedArgs : List (List Char)
  listArgs : List (List Char)
  env : MacroEnv
  rangeStart : Nat
  rangeStop : Nat

/-- Argument value types of the registry's closed type set. -/
inductive MacroValueType where
  | string | integer | number | boolean
deriving Repr, DecidableEq

/-- An unnamed-argument descriptor of a definition. -/
structure ArgDef where
  argName : String
  optional : Bool
  defaultValue : Option (List Char)
  types : List MacroValueType
deriving Repr

/-- A registry definition record (the fields the dispatch path reads). -/
structure MacroDef where
  name : String
  minArgs : Nat
  maxArgs : Nat
  unnamedArgDefs : List ArgDef
  listSpec : Option (Nat × Option Nat)
  strictArgs : Bool
  handler : HandlerCtx → Except MErr (List Char)

/-- A runtime invocation record (`MacroCall`), created by the walker
immediately prior to dispatch. -/
structure MacroCall where
  name : String
  args : List (List Char)
  rawInner : List Char
  rawWithBraces : List Char
  rangeStart : Nat
  rangeStop : Nat
  env : MacroEnv

/-- `'{{' + rawInner + '}}'`. -/
def braceWrap (inner : List Char) : List Char :=
  '{' :: '{' :: (inner ++ ['}', '}'])

/-- Registry lookup by primary name (`MacroRegistry.getMacro`). -/
def getMacro (reg : List MacroDef) (n : String) : Option MacroDef :=
  reg.find? (fun d => d.name == n)

/-- `MacroRegistry.hasMacro`. -/
def hasMacro (reg : List MacroDef) (n : String) : Bool :=
  (getMacro reg n).isSome

/-! ## Registry dispatch (spec-modelled) -/

/-- `-?[0-9]+`. -/
def isIntegerLit (s : List Char) : Bool :=
  match s with
  | '-' :: rest => rest ≠ [] && rest.all Char.isDigit
  | _ => s ≠ [] && s.all Char.isDigit

/-- A finite decimal literal: optional sign, digits, optional fractional
part. -/
def isNumberLit (s : List Char) : Bool :=
  let body := match s with
    | '-' :: rest => rest
    | _ => s
  match body.span Char.isDigit with
  | (intPart, []) => intPart ≠ []
  | (intPart, '.' :: frac) => intPart ≠ [] && frac ≠ [] && frac.all Char.isDigit
  | _ => false

def lowerStr (s : List Char) : List Char := s.map Char.toLower

/-- `true|false|1|0|yes|no`, case-insensitive. -/
def isBooleanLit (s : List Char) : Bool :=
  let l := lowerStr s
  l = "true".data || l = "false".data || l = "1".data || l = "0".data ||
    l = "yes".data || l = "no".data

def typeOk : MacroValueType → List Char → Bool
  | .string, _ => true
  | .integer, s => isIntegerLit s
  | .number, s => isNumberLit s
  | .boolean, s => isBooleanLit s

def typeName : MacroValueType → String
  | .string => "string"
  | .integer => "integer"
  | .number => "number"
  | .boolean => "boolean"

/-- An argument value satisfies a descriptor when the descriptor is untyped
or any member of its (union) type passes. -/
def argTypesOk (d : ArgDef) (v : List Char) : Bool :=
  d.types.isEmpty || d.types.any (fun t => typeOk t v)

/-- Modelled from the spec: arity validation of
`MacroRegistry.executeMacro` (the file `MacroRegistry.js` is not in the
repository snapshot; only its e2e tests are).  The spec's formula reads
"`required ≤ n ≤ positional + listMax` AND `n ≥ positional + listMin` when
`n > positional`", but the repository test
`should not resolve list-bounded macro when called outside list bounds`
(MacroRegistry.e2e.js) requires an invocation with `n = positional` and
`list.min = 1` to be invalid, so the list minimum is enforced whenever the
definition has a list with `min > 0`. -/
def arityOk (d : MacroDef) (n : Nat) : Bool :=
  decide (d.minArgs ≤ n) &&
    (match d.listSpec with
     | none => decide (n ≤ d.maxArgs)
     | some (lmin, lmax) =>
       (match lmax with
        | none => true
        | some m => decide (n ≤ d.maxArgs + m)) &&
       (if 0 < lmin then decide (d.maxArgs + lmin ≤ n) else true))

/-- Modelled from the spec: default substitution (step 3 of
`executeMacro`) — positional indices `[n, maxArgs)` whose descriptor is
optional receive `defaultValue`; a missing required descriptor contributes
the empty string (JavaScript `undefined` coerced at the handler boundary;
this point is only reachable in non-strict continuations). -/
def applyDefaults (d : MacroDef) (args : List (List Char)) : List (List Char) :=
  args ++ ((List.range (d.maxArgs - args.length)).map (fun i =>
    match d.unnamedArgDefs.get? (args.length + i) with
    | some ad => if ad.optional then ad.defaultValue.getD [] else []
    | none => []))

/-- Modelled from the spec: the first positional argument whose value
fails its descriptor's type, returning the expected type's name. -/
def firstTypeFailure (d : MacroDef) (padded : List (List Char)) : Option String :=
  (List.range d.maxArgs).findSome? (fun i =>
    match d.unnamedArgDefs.get? i, padded.get? i with
    | some ad, some v =>
      if argTypesOk ad v then none
      else some (String.intercalate "|" (ad.types.map typeName))
    | _, _ => none)

def arityMsg (n : String) : String :=
  "Macro \"" ++ n ++ "\" called with an invalid number of unnamed arguments"

def typeMsg (n t : String) : String :=
  "Macro \"" ++ n ++ "\" unnamed arguments: expected type " ++ t

/-- Modelled from the spec: `MacroRegistry.executeMacro` (the dispatch
path; `MacroRegistry.js` is not in the repository snapshot).  Resolves the
definition (`defOverride` first), validates arity, applies defaults,
validates argument types, splits positional/list arguments, and invokes
the handler.  Contract violations under `strictArgs` raise a
`MacroRuntimeError` (per `MacroDiagnostics.js`, such errors are caught by
the engine, logged as runtime warnings, and the invocation is left raw);
under non-strict definitions a runtime warning is logged and execution
continues.  Returns the emitted events and the handler outcome. -/
def executeMacro (reg : List MacroDef) (call : MacroCall)
    (defOverride : Option MacroDef) : List MEvent × Except MErr (List Char) :=
  match (match defOverride with
         | some d => some d
         | none => getMacro reg call.name) with
  | none => ([], .error ⟨"MacroRuntimeError", true, "Unknown macro"⟩)
  | some d =>
    let n := call.args.length
    if arityOk d n = false ∧ d.strictArgs then
      ([], .error ⟨"MacroRuntimeError", true, arityMsg call.name⟩)
    else
      let evs1 : List MEvent :=
        if arityOk d n then [] else [.warn call.name (arityMsg call.name)]
      let padded := applyDefaults d call.args
      match firstTypeFailure d padded with
      | some tn =>
        if d.strictArgs then
          (evs1, .error ⟨"MacroRuntimeError", true, typeMsg call.name tn⟩)
        else
          let evs2 := evs1 ++ [.warn call.name (typeMsg call.name tn)]
          (evs2 ++ [.run call.name],
            d.handler ⟨padded.take d.maxArgs, padded.drop d.maxArgs, call.env,
                       call.rangeStart, call.rangeStop⟩)
      | none =>
        (evs1 ++ [.run call.name],
          d.handler ⟨padded.take d.maxArgs, padded.drop d.maxArgs, call.env,
                     call.rangeStart, call.rangeStop⟩)

/-! ## The engine's resolver (`MacroEngine.#resolveMacro`) -/

/-- The one-shot definition the engine synthesizes for a dynamic macro
(`MacroEngine.#resolveMacro`): zero arity, strict, handler is the stored
callable or a constant function returning the stored value. -/
def dynDef (n : String) (impl : DynImpl) : MacroDef :=
  { name := n, minArgs := 0, maxArgs := 0, unnamedArgDefs := [],
    listSpec := none, strictArgs := true,
    handler := match impl with
      | .func f => fun _ => f ()
      | .value v => fun _ => .ok v }

def dynOverride (env : MacroEnv) (n : String) : Option MacroDef :=
  match env.dynamicMacros.lookup n with
  | none => none
  | some impl => some (dynDef n impl)

/-- `MacroEngine.#resolveMacro`, translated from the source: empty name
and unknown names return the invocation raw (braces around `rawInner`,
whose nested macros were already substituted by the walker); dynamic
macros synthesize a strict zero-arity override taking precedence over the
registry; handler results pass through `env.functions.postProcess` (a
postProcess failure is logged as an internal error and the unprocessed
result is used); thrown errors tagged as macro runtime errors are logged
as runtime warnings, any other thrown error as an internal error, and in
both cases the invocation is returned raw. -/
def resolveMacro (reg : List MacroDef) (call : MacroCall) :
    List MEvent × List Char :=
  let raw := braceWrap call.rawInner
  if call.name = "" then ([], raw)
  else
    let defOverride := dynOverride call.env call.name
    if defOverride.isNone ∧ hasMacro reg call.name = false then ([], raw)
    else
      match executeMacro reg call defOverride with
      | (evs, .ok result) =>
        match call.env.postProcess result with
        | .ok post => (evs, post)
        | .error _ =>
          (evs ++ [.err call.name
            ("Macro \"" ++ call.name ++ "\" postProcess function failed.")],
           result)
      | (evs, .error e) =>
        if e.errName = "MacroRuntimeError" || e.isMacroRuntimeError then
          (evs ++ [.warn call.name e.msg], raw)
        else
          (evs ++ [.err call.name
            ("Macro \"" ++ call.name ++ "\" internal execution error.")], raw)

/-! ## The CST walker (`MacroCstWalker.js`) -/

/-- An evaluated argument with its original source location
(the entries of `evaluatedArguments` in `#evaluateMacroNode`). -/
structure EvalArg where
  value : List Char
  argStart : Nat
  argStop : Nat

/-- The nested-macro loop of `MacroCstWalker.#evaluateArgumentNode`,
parametric in the macro evaluator: entries (macro node with its range) are
walked in order; an entry whose start lies before the cursor is skipped
(`continue`); otherwise the text from the cursor up to the entry's start
is emitted, then the entry's evaluated value, and the cursor advances past
the entry's end.  Returns the emitted events, the output, and the final
cursor. -/
def evalArgLoop (evalM : MacroNode → List MEvent × List Char)
    (text : List Char) (cursor : Nat) :
    List (MacroNode × (Nat × Nat)) → List MEvent × List Char × Nat
  | [] => ([], [], cursor)
  | e :: rest =>
    if e.2.1 < cursor then evalArgLoop evalM text cursor rest
    else
      let pre := jsSlice text cursor e.2.1
      let (evs, v) := evalM e.1
      let (evs2, out, fin) := evalArgLoop evalM text (e.2.2 + 1) rest
      (evs ++ evs2, pre ++ v ++ out, fin)

/-- `MacroCstWalker.#evaluateArgumentNode`, parametric in the macro
evaluator: an argument without location yields the empty string; one
without nested macros yields its source text verbatim; otherwise the
nested macros are sorted by start offset and interleaved with the
surrounding text by `evalArgLoop`, followed by any trailing text. -/
def evaluateArgumentNode (evalM : MacroNode → List MEvent × List Char)
    (text : List Char) (a : ArgNode) : List MEvent × List Char :=
  match getArgumentLocation a with
  | none => ([], [])
  | some (locS, locE) =>
    if a.2.isEmpty then ([], jsSlice text locS (locE + 1))
    else
      let sorted := (a.2.map (fun n => (n, getMacroRange n))).insertionSort
        (fun x y => x.2.1 ≤ y.2.1)
      let (evs, out, fin) := evalArgLoop evalM text locS sorted
      (evs, out ++ (if fin ≤ locE then jsSlice text fin (locE + 1) else []))

/-- The name the walker reads off an invocation node
(`identifierTokens[0]?.image || ''`). -/
def macroNodeName (m : MacroNode) : String :=
  match m.identTok with
  | some t => t.image
  | none => ""

/-- The `MacroCall` record `MacroCstWalker.#evaluateMacroNode` builds,
parametric in the (pure) argument evaluator: each argument subtree's
value, the `rawInner` reconstruction from the already-evaluated argument
values and the source text between the argument spans (arguments walked in
ascending start order; separators and whitespace between argument spans
preserved), the raw text with braces, and the range. -/
def walkerCallOf (argEval : ArgNode → List MEvent × List Char)
    (text : List Char) (env : MacroEnv) (m : MacroNode) : MacroCall :=
  let name := match m.identTok with
    | some t => t.image
    | none => ""
  let range := getMacroRange m
  let innerStart : Int := match m.startTok with
    | some s => (s.tokStop : Int) + 1
    | none => (range.1 : Int)
  let innerEnd : Int := match m.closeTok with
    | some e => (e.tokStart : Int) - 1
    | none => (range.2 : Int)
  let argEvald := m.args.map (fun a => ((argEval a).2, getArgumentLocation a))
  let args := argEvald.map (fun x => x.1)
  let evaluatedArgs : List EvalArg := argEvald.filterMap (fun x =>
    match x.2 with
    | some (s, e) => some ⟨x.1, s, e⟩
    | none => none)
  let sortedArgs := evaluatedArgs.insertionSort (fun a b => a.argStart ≤ b.argStart)
  let rawInner :=
    if innerStart ≤ innerEnd then
      let step := sortedArgs.foldl (fun (acc : Int × List Char) e =>
        let acc2 := if (e.argStart : Int) > acc.1
          then acc.2 ++ jsSlice text acc.1.toNat e.argStart
          else acc.2
        ((e.argStop : Int) + 1, acc2 ++ e.value)) (innerStart, [])
      if step.1 ≤ innerEnd
        then step.2 ++ jsSlice text step.1.toNat (innerEnd + 1).toNat
        else step.2
    else []
  { name := name, args := args, rawInner := rawInner,
    rawWithBraces := jsSlice text range.1 (range.2 + 1),
    rangeStart := range.1, rangeStop := range.2, env := env }

/-- `MacroCstWalker.#evaluateMacroNode` composed with the engine's
resolver: evaluates all argument subtrees (nested macros first), builds
the `MacroCall` with `walkerCallOf` over the same (pure) argument
evaluator, and invokes the resolver.  Emits the nested argument events,
then a `resolve` event, then the resolver's events. -/
def evaluateMacroNode (fuel : Nat) (text : List Char) (env : MacroEnv)
    (reg : List MacroDef) (m : MacroNode) : List MEvent × List Char :=
  match fuel with
  | 0 => ([], [])
  | fuel + 1 =>
    let argEval := fun a =>
      evaluateArgumentNode (evaluateMacroNode fuel text env reg) text a
    let argEvents := (m.args.map (fun a => (argEval a).1)).flatten
    let call := walkerCallOf argEval text env m
    let res := resolveMacro reg call
    (argEvents ++
      [.resolve (macroNodeName m) (getMacroRange m).1 (getMacroRange m).2] ++
      res.1, res.2)

/-- A plaintext document item for a token, if present. -/
def optPtItem : Option MacroTok → List DocItem
  | none => []
  | some t => [.plaintext t.tokStart t.tokStop t]

/-- `MacroCstWalker.#flattenIncompleteMacro` (generalized over whether the
node's own close token is the excluded recovery token): the node's tokens
become plaintext items; a nested node with real start and close tokens
either becomes a macro item (close not recovery-inserted) or is flattened
recursively with its own close excluded; a nested node missing either
delimiter is traversed like an argument wrapper, keeping its close token
since it is not the excluded one. -/
def flattenNode (fuel : Nat) (skipClose : Bool) (m : MacroNode) : List DocItem :=
  match fuel with
  | 0 => []
  | fuel + 1 =>
    optPtItem m.startTok ++ optPtItem m.identTok ++
    (m.args.flatMap (fun a =>
      a.1.map (fun t => DocItem.plaintext t.tokStart t.tokStop t) ++
      a.2.flatMap (fun n =>
        match n.startTok, n.closeTok with
        | some _, some c =>
          if c.recovery = false then
            [DocItem.macroItem (getMacroRange n).1 (getMacroRange n).2 n]
          else flattenNode fuel true n
        | _, _ => flattenNode fuel false n))) ++
    (if skipClose then [] else optPtItem m.closeTok)

/-- `#flattenIncompleteMacro` proper: flatten with the node's own
(recovery-inserted) close token excluded. -/
def flattenIncompleteMacro (fuel : Nat) (m : MacroNode) : List DocItem :=
  flattenNode fuel true m

/-- A parsed document CST: top-level plaintext tokens and macro nodes. -/
structure DocCst where
  plaintext : List MacroTok
  macros : List MacroNode
deriving Repr

/-- `MacroCstWalker.#collectDocumentItems`: plaintext tokens become items;
a macro whose end token is recovery-inserted is flattened, any other
becomes a macro item; everything is sorted by (start, end). -/
def collectDocumentItems (fuel : Nat) (cst : DocCst) : List DocItem :=
  let ptItems := cst.plaintext.map (fun t => DocItem.plaintext t.tokStart t.tokStop t)
  let macroItems := cst.macros.flatMap (fun m =>
    if isRecoveryToken m.closeTok then flattenIncompleteMacro fuel m
    else [DocItem.macroItem (getMacroRange m).1 (getMacroRange m).2 m])
  (ptItems ++ macroItems).insertionSort ItemLeR

/-- The item walk of `MacroCstWalker.evaluateDocument`: preceding gaps are
copied verbatim, plaintext items copy their range, macro items evaluate,
the cursor advances past each item, and the trailing text is appended. -/
def evalDocLoop (evalM : MacroNode → List MEvent × List Char)
    (text : List Char) (cursor : Nat) : List DocItem → List MEvent × List Char
  | [] => ([], if cursor < text.length then jsSlice text cursor text.length else [])
  | it :: rest =>
    let gap := if it.startOffset > cursor then jsSlice text cursor it.startOffset else []
    match it with
    | .plaintext s e _ =>
      let restRes := evalDocLoop evalM text (e + 1) rest
      (restRes.1, gap ++ jsSlice text s (e + 1) ++ restRes.2)
    | .macroItem _ e node =>
      let mres := evalM node
      let restRes := evalDocLoop evalM text (e + 1) rest
      (mres.1 ++ restRes.1, gap ++ mres.2 ++ restRes.2)

/-- `MacroCstWalker.evaluateDocument` composed with the engine's resolver:
collect items (empty item list returns the text unchanged), then walk them
in sorted order. -/
def evaluateDocument (fuel : Nat) (text : List Char) (env : MacroEnv)
    (reg : List MacroDef) (cst : DocCst) : List MEvent × List Char :=
  let items := collectDocumentItems fuel cst
  if items.isEmpty then ([], text)
  else evalDocLoop (evaluateMacroNode fuel text env reg) text 0 items

/-! ## Lexer/parser (spec-modelled; `MacroParser.js` is not in the
repository snapshot) -/

/-- Modelled from the spec: identifier start characters
(`[A-Za-z_/]`; `/` included so that `//` is a valid identifier). -/
def isIdentStartChar (c : Char) : Bool :=
  c.isAlpha || c = '_' || c = '/'

/-- Modelled from the spec: identifier continuation characters
(`[A-Za-z0-9_/\-]`). -/
def isIdentChar (c : Char) : Bool :=
  c.isAlphanum || c = '_' || c = '/' || c = '-'

def isWsChar (c : Char) : Bool :=
  c = ' ' || c = '\t' || c = '\n' || c = '\r'

/-- Modelled from the spec: the lookahead after `{{` deciding whether the
braces form an `OPEN` token — optional whitespace followed by a valid
identifier start (so `Test {{ hehe` lexes an open while `{{{{char}}` and
`{{§§` treat the leading braces as plaintext, per the e2e tests). -/
def openLookahead : List Char → Bool
  | [] => false
  | c :: r => if isWsChar c then openLookahead r else isIdentStartChar c

/-- Modelled from the spec: whether the input at this position begins a
macro `OPEN`. -/
def isOpenAt : List Char → Bool
  | c1 :: c2 :: r => c1 = '{' && c2 = '{' && openLookahead r
  | _ => false

/-- Consume plaintext up to the next macro `OPEN` (or end of input). -/
def takePlain : List Char → Nat → List Char × List Char × Nat
  | [], pos => ([], [], pos)
  | c :: r, pos =>
    if isOpenAt (c :: r) then ([], c :: r, pos)
    else
      let (run, s', p') := takePlain r (pos + 1)
      (c :: run, s', p')

/-- Consume characters satisfying a predicate, tracking the position. -/
def takeWhilePos (p : Char → Bool) : List Char → Nat → List Char × List Char × Nat
  | [], pos => ([], [], pos)
  | c :: r, pos =>
    if p c then
      let (run, s', p') := takeWhilePos p r (pos + 1)
      (c :: run, s', p')
    else ([], c :: r, pos)

/-- The close token chevrotain synthesizes during error recovery
(`isInsertedInRecovery = true`, no usable offsets). -/
def recoveryCloseTok : MacroTok := ⟨0, 0, "", true⟩

/-- How a run of argument content ended. -/
inductive ArgTerm where
  | sep
  | close (tok : MacroTok)
  | eof
deriving Repr

/-- Consume argument text up to the next boundary: a `}}` close, a `::`
separator (only outside the legacy single-argument form), a nested macro
`OPEN`, or end of input. -/
def takeArgText (legacy : Bool) : List Char → Nat → List Char × List Char × Nat
  | [], pos => ([], [], pos)
  | c :: r, pos =>
    if (match c :: r with
        | '}' :: '}' :: _ => true
        | ':' :: ':' :: _ => !legacy
        | _ => false) || isOpenAt (c :: r) then
      ([], c :: r, pos)
    else
      let (run, s', p') := takeArgText legacy r (pos + 1)
      (c :: run, s', p')

mutual

/-- Modelled from the spec: parse one macro invocation starting at `{{`.
Consumes the open braces, optional whitespace, the identifier, then either
a real close (`}}`), a `::`-separated argument list, the legacy
single-separator form (one separator character — a single colon or a
whitespace — followed by exactly one argument reaching to the close), or
end of input, in which case a recovery close token is synthesized. -/
def parseMacroNode (fuel : Nat) (s : List Char) (pos : Nat) :
    MacroNode × List Char × Nat :=
  match fuel with
  | 0 => (⟨none, none, [], none⟩, [], pos + s.length)
  | fuel + 1 =>
    match s with
    | '{' :: '{' :: r =>
      let startTok : MacroTok := ⟨pos, pos + 1, "\x7b\x7b", false⟩
      let (_, r1, p1) := takeWhilePos isWsChar r (pos + 2)
      match r1 with
      | [] => (⟨some startTok, none, [], some recoveryCloseTok⟩, [], p1)
      | c :: r2 =>
        if isIdentStartChar c then
          let (idRest, r3, p3) := takeWhilePos isIdentChar r2 (p1 + 1)
          let identTok := some (⟨p1, p3 - 1, (c :: idRest).asString, false⟩ : MacroTok)
          match r3 with
          | '}' :: '}' :: rr =>
            (⟨some startTok, identTok, [], some ⟨p3, p3 + 1, "\x7d\x7d", false⟩⟩,
             rr, p3 + 2)
          | ':' :: ':' :: rr =>
            let (args, close, s', p') := parseArgsLoop fuel rr (p3 + 2)
            (⟨some startTok, identTok, args, close⟩, s', p')
          | [] => (⟨some startTok, identTok, [], some recoveryCloseTok⟩, [], p3)
          | _ :: rr =>
            let (toks, ms, term, s', p') := parseArgItems fuel rr (p3 + 1) true
            match term with
            | .close t => (⟨some startTok, identTok, [(toks, ms)], some t⟩, s', p')
            | _ => (⟨some startTok, identTok, [(toks, ms)], some recoveryCloseTok⟩, s', p')
        else (⟨some startTok, none, [], some recoveryCloseTok⟩, c :: r2, p1)
    | _ => (⟨none, none, [], none⟩, [], pos + s.length)

/-- Modelled from the spec: parse the `::`-separated argument list after
the first separator, ending at a real close or synthesizing a recovery
close at end of input. -/
def parseArgsLoop (fuel : Nat) (s : List Char) (pos : Nat) :
    List ArgNode × Option MacroTok × List Char × Nat :=
  match fuel with
  | 0 => ([], some recoveryCloseTok, s, pos)
  | fuel + 1 =>
    let (toks, ms, term, s', p') := parseArgItems fuel s pos false
    match term with
    | .sep =>
      let (args, close, s'', p'') := parseArgsLoop fuel s' p'
      ((toks, ms) :: args, close, s'', p'')
    | .close t => ([(toks, ms)], some t, s', p')
    | .eof => ([(toks, ms)], some recoveryCloseTok, s', p')

/-- Modelled from the spec: parse the content of one argument — raw text
runs interleaved with nested macro invocations — up to its terminating
boundary. -/
def parseArgItems (fuel : Nat) (s : List Char) (pos : Nat) (legacy : Bool) :
    List MacroTok × List MacroNode × ArgTerm × List Char × Nat :=
  match fuel with
  | 0 => ([], [], .eof, s, pos)
  | fuel + 1 =>
    let (run, s1, p1) := takeArgText legacy s pos
    let toks0 : List MacroTok :=
      if run.isEmpty then [] else [⟨pos, p1 - 1, run.asString, false⟩]
    match s1 with
    | [] => (toks0, [], .eof, [], p1)
    | '}' :: '}' :: r => (toks0, [], .close ⟨p1, p1 + 1, "\x7d\x7d", false⟩, r, p1 + 2)
    | ':' :: ':' :: r =>
      if legacy then
        -- unreachable: the legacy form does not stop at separators
        (toks0, [], .eof, r, p1 + 2)
      else (toks0, [], .sep, r, p1 + 2)
    | s2 =>
      let (mnode, s3, p3) := parseMacroNode fuel s2 p1
      let (toks, msr, term, s4, p4) := parseArgItems fuel s3 p3 legacy
      (toks0 ++ toks, mnode :: msr, term, s4, p4)

end

/-- Modelled from the spec: the top-level item loop — plaintext runs up to
each macro `OPEN`, macro invocations parsed by `parseMacroNode`. -/
def parseItems (fuel : Nat) (s : List Char) (pos : Nat) :
    List MacroTok × List MacroNode :=
  match fuel with
  | 0 => ([], [])
  | fuel + 1 =>
    match s with
    | [] => ([], [])
    | _ =>
      if isOpenAt s then
        let (m, s', p') := parseMacroNode fuel s pos
        let (pts, ms) := parseItems fuel s' p'
        (pts, m :: ms)
      else
        let (run, s', p') := takePlain s pos
        let (pts, ms) := parseItems fuel s' p'
        (⟨pos, p' - 1, run.asString, false⟩ :: pts, ms)

/-- Modelled from the spec: `MacroParser.parseDocument` — lex and parse the
whole input with error recovery, producing the document CST. -/
def parseDocument (s : List Char) : DocCst :=
  let (pts, ms) := parseItems (4 * s.length + 16) s 0
  ⟨pts, ms⟩

/-! ## Pre- and post-processors (`MacroEngine.#runPreProcessors`,
`MacroEngine.#runPostProcessors`) -/

/-- Case-insensitive prefix test. -/
def startsWithCI : List Char → List Char → Bool
  | [], _ => true
  | _ :: _, [] => false
  | p :: ps, c :: cs => (p.toLower == c.toLower) && startsWithCI ps cs

/-- Case-insensitive substring test (a match starting at some position). -/
def containsCI (pat : List Char) : List Char → Bool
  | [] => startsWithCI pat []
  | c :: r => startsWithCI pat (c :: r) || containsCI pat r

/-- Global case-insensitive literal replacement, scanning left to right and
continuing after each replacement (JavaScript `String.replace` with a
`gi`-flagged literal pattern).  Fuel exhaustion returns the remaining text
unchanged. -/
def replaceAllCI (fuel : Nat) (pat rep : List Char) (s : List Char) : List Char :=
  match fuel with
  | 0 => s
  | fuel + 1 =>
    match s with
    | [] => []
    | c :: r =>
      if pat.isEmpty = false && startsWithCI pat (c :: r) then
        rep ++ replaceAllCI fuel pat rep ((c :: r).drop pat.length)
      else c :: replaceAllCI fuel pat rep r

/-- Match `{{time_(UTC[+-]\d+)}}` (case-insensitive) at the head of the
input, returning the captured `UTC[+-]\d+` text (original case) and the
remaining input. -/
def tryTimeMatch (s : List Char) : Option (List Char × List Char) :=
  if startsWithCI "\x7b\x7btime_".data s then
    let s1 := s.drop 7
    if startsWithCI "utc".data s1 then
      match s1.drop 3 with
      | sign :: rest =>
        if sign = '+' || sign = '-' then
          let digits := rest.takeWhile Char.isDigit
          if digits.isEmpty then none
          else
            let afterDigits := rest.drop digits.length
            match afterDigits with
            | '}' :: '}' :: tail => some (s1.take (3 + 1 + digits.length), tail)
            | _ => none
        else none
      | [] => none
    else none
  else none

/-- The `{{time_UTC±N}}` → `{{time::UTC±N}}` legacy rewrite of
`#runPreProcessors`. -/
def timeRewrite (fuel : Nat) (s : List Char) : List Char :=
  match fuel with
  | 0 => s
  | fuel + 1 =>
    match s with
    | [] => []
    | c :: r =>
      match tryTimeMatch (c :: r) with
      | some (cap, rest) =>
        "\x7b\x7btime::".data ++ cap ++ "\x7d\x7d".data ++ timeRewrite fuel rest
      | none => c :: timeRewrite fuel r

/-- `MacroEngine.#runPreProcessors`: the legacy time macro rewrite followed
by the case-insensitive marker rewrites `<USER>`, `<BOT>`, `<CHAR>`,
`<GROUP>`, `<CHARIFNOTGROUP>`. -/
def runPreProcessors (s : List Char) : List Char :=
  let f := s.length + 1
  let s1 := timeRewrite f s
  let s2 := replaceAllCI (s1.length + 1) "<user>".data "\x7b\x7buser\x7d\x7d".data s1
  let s3 := replaceAllCI (s2.length + 1) "<bot>".data "\x7b\x7bchar\x7d\x7d".data s2
  let s4 := replaceAllCI (s3.length + 1) "<char>".data "\x7b\x7bchar\x7d\x7d".data s3
  let s5 := replaceAllCI (s4.length + 1) "<group>".data "\x7b\x7bgroup\x7d\x7d".data s4
  replaceAllCI (s5.length + 1) "<charifnotgroup>".data
    "\x7b\x7bcharIfNotGroup\x7d\x7d".data s5

/-- The `\{` → `{`, `\}` → `}` unescaping of `#runPostProcessors`
(`/\\([{}])/g`). -/
def unescapeBraces : List Char → List Char
  | [] => []
  | c :: r =>
    if c = '\\' then
      match r with
      | [] => [c]
      | c2 :: r2 =>
        if c2 = '{' || c2 = '}' then c2 :: unescapeBraces r2
        else c :: unescapeBraces (c2 :: r2)
    else c :: unescapeBraces r

/-- Greedy consumption of a `(\r?\n)*` run, returning the number of
characters consumed and the rest. -/
def nlMunch : List Char → Nat × List Char
  | [] => (0, [])
  | c :: r =>
    if c = '\n' then ((nlMunch r).1 + 1, (nlMunch r).2)
    else if c = '\r' then
      match r with
      | r2h :: r2 =>
        if r2h = '\n' then ((nlMunch r2).1 + 2, (nlMunch r2).2)
        else (0, c :: r)
      | [] => (0, c :: r)
    else (0, c :: r)

def trimLit : List Char := "\x7b\x7btrim\x7d\x7d".data

/-- The `{{trim}}` removal of `#runPostProcessors`
(`/(?:\r?\n)*{{trim}}(?:\r?\n)*/gi`, global): at each position, a greedy
newline run followed by the literal `{{trim}}` (case-insensitive) and a
greedy trailing newline run is removed; otherwise the scan advances one
character. -/
def trimRemove (fuel : Nat) (s : List Char) : List Char :=
  match fuel with
  | 0 => s
  | fuel + 1 =>
    let s1 := (nlMunch s).2
    if startsWithCI trimLit s1 then
      let s2 := s1.drop 8
      trimRemove fuel (nlMunch s2).2
    else
      match s with
      | [] => []
      | c :: r => c :: trimRemove fuel r

/-- `MacroEngine.#runPostProcessors`: brace unescaping followed by the
trim-token removal. -/
def runPostProcessors (s : List Char) : List Char :=
  let s1 := unescapeBraces s
  trimRemove (s1.length + 1) s1

/-- `MacroEngine.evaluate`: empty input returns empty; otherwise the input
is pre-processed, parsed, walked with the engine's resolver, and
post-processed.  The environment used during the walk is the shallow
treated-immutable copy built before pre-processing (a pure value here).
Returns the event trace together with the output. -/
def evaluate (input : List Char) (env : MacroEnv) (reg : List MacroDef) :
    List MEvent × List Char :=
  if input.isEmpty then ([], [])
  else
    let safeEnv := env
    let pre := runPreProcessors input
    let cst := parseDocument pre
    let (evs, evaluated) := evaluateDocument (4 * pre.length + 16) pre safeEnv reg cst
    (evs, runPostProcessors evaluated)

/-! ## Concrete definitions and environment used by the scenarios -/

/-- JavaScript `Number(s)` restricted to the repeat-count use of the
`newline`/`space` handlers: a digit string parses, anything else behaves
as zero repetitions. -/
def jsRepeatCount (s : List Char) : Nat :=
  if s ≠ [] && s.all Char.isDigit then s.foldl (fun n c => n * 10 + (c.toNat - 48)) 0
  else 0

/-- The `newline` core macro (core-macros.js): one optional integer-typed
`count` argument defaulting to `'1'`; the handler repeats `'\n'`. -/
def newlineDef : MacroDef :=
  { name := "newline", minArgs := 0, maxArgs := 1,
    unnamedArgDefs := [⟨"count", true, some "1".data, [.integer]⟩],
    listSpec := none, strictArgs := true,
    handler := fun ctx =>
      .ok (List.replicate (jsRepeatCount (ctx.unnamedArgs.headD "1".data)) '\n') }

/-- The `trim` core macro (core-macros.js): the handler replaces the macro
with the literal `{{trim}}`; trimming happens in post-processing. -/
def trimDef : MacroDef :=
  { name := "trim", minArgs := 0, maxArgs := 0, unnamedArgDefs := [],
    listSpec := none, strictArgs := true,
    handler := fun _ => .ok trimLit }

/-- Modelled from the spec: the `user` name macro (its defining source
file is not in the repository snapshot) — zero arguments, returns
`env.names.user`. -/
def userDef : MacroDef :=
  { name := "user", minArgs := 0, maxArgs := 0, unnamedArgDefs := [],
    listSpec := none, strictArgs := true,
    handler := fun ctx => .ok ctx.env.names_user }

/-- Modelled from the spec: the `char` name macro — zero arguments,
returns `env.names.char`. -/
def charDef : MacroDef :=
  { name := "char", minArgs := 0, maxArgs := 0, unnamedArgDefs := [],
    listSpec := none, strictArgs := true,
    handler := fun ctx => .ok ctx.env.names_char }

/-- The registry contents used by the concrete scenarios. -/
def testRegistry : List MacroDef := [userDef, charDef, newlineDef, trimDef]

/-- The default e2e environment (`name1Override = 'User'`,
`name2Override = 'Character'`, identity postProcess). -/
def testEnv : MacroEnv :=
  { names_user := "User".data, names_char := "Character".data,
    dynamicMacros := [], postProcess := fun s => .ok s }

/-! ## Claim-side predicates and concrete instances used by the theorems -/

/-- Well-formed macro nodes as the parser produces them, indexed by a
nesting-depth bound: a present start token, a present close token (real or
recovery-inserted), and well-formed nested nodes of smaller depth.
(Recovery manifests only in the close token.) -/
inductive WFDepth : Nat → MacroNode → Prop where
  | mk : ∀ (d : Nat) (m : MacroNode), (∃ s, m.startTok = some s) →
      (∃ c, m.closeTok = some c) →
      (∀ a ∈ m.args, ∀ n ∈ a.2, WFDepth d n) → WFDepth (d + 1) m

/-- The tokens of an incomplete invocation that flattening turns into
plaintext: its start token, its identifier token, the raw text tokens of
its arguments, and — recursively — the same tokens of any nested
invocation that is itself incomplete.  The recovery-inserted close tokens
are never included. -/
inductive FlatTokIn : MacroNode → MacroTok → Prop where
  | start : ∀ {m t}, m.startTok = some t → FlatTokIn m t
  | ident : ∀ {m t}, m.identTok = some t → FlatTokIn m t
  | argTok : ∀ {m a t}, a ∈ m.args → t ∈ a.1 → FlatTokIn m t
  | nested : ∀ {m a n t}, a ∈ m.args → n ∈ a.2 →
      isRecoveryToken n.closeTok = true → FlatTokIn n t → FlatTokIn m t

/-- The complete nested invocations inside an incomplete invocation that
flattening preserves as invocation items: a nested node with a real close
directly inside one of the arguments, or — through a nested invocation
that is itself incomplete — recursively deeper. -/
inductive PreservedNested : MacroNode → MacroNode → Prop where
  | here : ∀ {m a n}, a ∈ m.args → n ∈ a.2 →
      isRecoveryToken n.closeTok = false → PreservedNested m n
  | deeper : ∀ {m a n n'}, a ∈ m.args → n ∈ a.2 →
      isRecoveryToken n.closeTok = true → PreservedNested n n' → PreservedNested m n'

/-- The arity formula exactly as the specification (and claim C3) states
it: `required ≤ n ≤ positional + listMax` and additionally
`n ≥ positional + listMin` whenever `n > positional`; `listMax` is
unbounded for a list without `max` and `0` without a list. -/
def claimArityFormula (d : MacroDef) (n : Nat) : Prop :=
  d.minArgs ≤ n ∧
  (match d.listSpec with
   | none => n ≤ d.maxArgs
   | some (_, some m) => n ≤ d.maxArgs + m
   | some (_, none) => True) ∧
  (d.maxArgs < n →
    d.maxArgs + (match d.listSpec with
                 | none => 0
                 | some (lmin, _) => lmin) ≤ n)

/-- The arity condition amended to match the repository's e2e test: the
list minimum is enforced whenever the definition has a list with
`min > 0` (not only when `n > positional`). -/
def amendedArityFormula (d : MacroDef) (n : Nat) : Prop :=
  d.minArgs ≤ n ∧
  (match d.listSpec with
   | none => n ≤ d.maxArgs
   | some (_, some m) => n ≤ d.maxArgs + m
   | some (_, none) => True) ∧
  (match d.listSpec with
   | none => True
   | some (lmin, _) => 0 < lmin → d.maxArgs + lmin ≤ n)

/-- The `test-list-bounds` definition registered by the e2e test
`should not resolve list-bounded macro when called outside list bounds`:
one required untyped argument plus a list of one to two entries. -/
def tlbDef : MacroDef :=
  { name := "test-list-bounds", minArgs := 1, maxArgs := 1,
    unnamedArgDefs := [⟨"arg1", false, none, []⟩],
    listSpec := some (1, some 2), strictArgs := true,
    handler := fun ctx =>
      .ok (List.intercalate "|".data (ctx.unnamedArgs ++ ctx.listArgs)) }

/-- The first invalid invocation of that e2e test:
`{{test-list-bounds::base}}` — only the required argument, no list
entries. -/
def tlbCall : MacroCall :=
  { name := "test-list-bounds", args := ["base".data],
    rawInner := "test-list-bounds::base".data,
    rawWithBraces := braceWrap "test-list-bounds::base".data,
    rangeStart := 2, rangeStop := 27, env := testEnv }

/-- A definition whose handler throws a non-runtime error (C6 witness). -/
def boomDef : MacroDef :=
  { name := "boom", minArgs := 0, maxArgs := 0, unnamedArgDefs := [],
    listSpec := none, strictArgs := true,
    handler := fun _ => .error ⟨"TypeError", false, "boom"⟩ }

/-- The invocation `{{boom}}` against `boomDef` (C6 witness). -/
def boomCall : MacroCall :=
  { name := "boom", args := [], rawInner := "boom".data,
    rawWithBraces := braceWrap "boom".data,
    rangeStart := 0, rangeStop := 7, env := testEnv }

/-- An invocation of a dynamic macro with one argument (C5 witness):
`{{dyn::extra}}` with `env.dynamicMacros = { dyn: 'OK' }`. -/
def dynEnv : MacroEnv :=
  { names_user := "User".data, names_char := "Character".data,
    dynamicMacros := [("dyn", .value "OK".data)],
    postProcess := fun s => .ok s }

def dynCall : MacroCall :=
  { name := "dyn", args := ["extra".data], rawInner := "dyn::extra".data,
    rawWithBraces := braceWrap "dyn::extra".data,
    rangeStart := 5, rangeStop := 18, env := dynEnv }

/-- The text chunks emitted by `evalArgLoop` (instrumentation for C9): for
each non-dropped entry, the slice from the cursor to the entry's start and
the entry's evaluated value. -/
def argLoopChunks (evalM : MacroNode → List MEvent × List Char)
    (text : List Char) (cursor : Nat) :
    List (MacroNode × (Nat × Nat)) → List (List Char)
  | [] => []
  | e :: rest =>
    if e.2.1 < cursor then argLoopChunks evalM text cursor rest
    else jsSlice text cursor e.2.1 :: (evalM e.1).2 ::
      argLoopChunks evalM text (e.2.2 + 1) rest

/-- The half-open source ranges `evalArgLoop` slices verbatim text from
(instrumentation for C9). -/
def argLoopSliceRanges (cursor : Nat) :
    List (MacroNode × (Nat × Nat)) → List (Nat × Nat)
  | [] => []
  | e :: rest =>
    if e.2.1 < cursor then argLoopSliceRanges cursor rest
    else (cursor, e.2.1) :: argLoopSliceRanges (e.2.2 + 1) rest

/-- The trace an item contributes in the document walk (C4). -/
def docItemTrace (evalM : MacroNode → List MEvent × List Char) :
    DocItem → List MEvent
  | .plaintext _ _ _ => []
  | .macroItem _ _ n => (evalM n).1

/-- The claimed shape of the items flattening an incomplete invocation
produces (C1): every item is either a plaintext item for one of the
invocation's own tokens (`FlatTokIn`) or a preserved complete nested
invocation item (`PreservedNested`). -/
def FlatSpec (m : MacroNode) (it : DocItem) : Prop :=
  (∃ t, FlatTokIn m t ∧ it = .plaintext t.tokStart t.tokStop t) ∨
  (∃ n, PreservedNested m n ∧
    it = .macroItem (getMacroRange n).1 (getMacroRange n).2 n)

/-- The complete nested invocation `\x7b\x7buser\x7d\x7d` of the C1 e2e
scenario `Test \x7b\x7b hehe \x7b\x7buser\x7d\x7d`. -/
def c1Inner : MacroNode :=
  .mk (some ⟨13, 14, "\x7b\x7b", false⟩) (some ⟨15, 18, "user", false⟩) []
      (some ⟨19, 20, "\x7d\x7d", false⟩)

/-- The incomplete outer invocation of that scenario: a recovery-inserted
close token, with the complete `\x7b\x7buser\x7d\x7d` nested in its
argument. -/
def c1Node : MacroNode :=
  .mk (some ⟨5, 6, "\x7b\x7b", false⟩) (some ⟨8, 11, "hehe", false⟩)
      [([⟨7, 7, " ", false⟩, ⟨12, 12, " ", false⟩], [c1Inner])]
      (some ⟨20, 20, "", true⟩)

/-! ## Theorems -/

/-- C2: an invocation whose name is non-empty, not a dynamic macro of the
environment, and not registered is returned verbatim by `resolveMacro` —
`'{{' + rawInner + '}}'`, where the walker has already substituted every
nested invocation's evaluated value into `rawInner` — and no warning (no
event at all) is logged for the unknown name; in particular the pipeline
evaluates `Test: {{unknown::my {{newline}} example}}` to
`Test: {{unknown::my \n example}}`. -/
theorem c2_unknown_macro_raw :
    (∀ (reg : List MacroDef) (call : MacroCall),
      call.name ≠ "" →
      call.env.dynamicMacros.lookup call.name = none →
      hasMacro reg call.name = false →
      resolveMacro reg call = ([], braceWrap call.rawInner)) ∧
    (evaluate "Test: \x7b\x7bunknown::my \x7b\x7bnewline\x7d\x7d example\x7d\x7d".data
        testEnv testRegistry).2
      = "Test: \x7b\x7bunknown::my \n example\x7d\x7d".data := by
  constructor
  · intro reg call h1 h2 h3
    simp [resolveMacro, dynOverride, h1, h2, h3]
  · decide

/-- C2 witness: the general part applied to a concrete unknown invocation
against the concrete registry. -/
theorem c2_unknown_macro_raw_witness :
    resolveMacro testRegistry
      { name := "unknown", args := [], rawInner := "unknown".data,
        rawWithBraces := braceWrap "unknown".data, rangeStart := 0,
        rangeStop := 10, env := testEnv } =
      ([], braceWrap "unknown".data) :=
  c2_unknown_macro_raw.1 testRegistry _ (by decide) (by rfl) (by decide)

/-- C5: a name present in `env.dynamicMacros` makes `resolveMacro`
synthesize a one-shot definition with `minArgs = 0`, `maxArgs = 0`,
`strictArgs = true`, no list, and a handler that is the stored callable or
a constant function returning the stored value; this override takes
precedence over any registry definition of the same name (the result does
not depend on the registry at all), and an invocation with one or more
arguments is left raw with a runtime arity warning. -/
theorem c5_dynamic_macro_override :
    (∀ (env : MacroEnv) (n : String) (impl : DynImpl),
      env.dynamicMacros.lookup n = some impl →
      dynOverride env n = some (dynDef n impl) ∧
      (dynDef n impl).minArgs = 0 ∧ (dynDef n impl).maxArgs = 0 ∧
      (dynDef n impl).strictArgs = true ∧ (dynDef n impl).listSpec = none ∧
      (∀ ctx v, impl = .value v → (dynDef n impl).handler ctx = .ok v) ∧
      (∀ ctx f, impl = .func f → (dynDef n impl).handler ctx = f ())) ∧
    (∀ (reg reg' : List MacroDef) (call : MacroCall) (impl : DynImpl),
      call.env.dynamicMacros.lookup call.name = some impl →
      call.name ≠ "" →
      resolveMacro reg call = resolveMacro reg' call) ∧
    (∀ (reg : List MacroDef) (call : MacroCall) (impl : DynImpl),
      call.env.dynamicMacros.lookup call.name = some impl →
      call.name ≠ "" →
      call.args ≠ [] →
      resolveMacro reg call =
        ([.warn call.name (arityMsg call.name)], braceWrap call.rawInner)) := by
  refine ⟨?_, ?_, ?_⟩
  · intro env n impl h
    refine ⟨by simp [dynOverride, h], rfl, rfl, rfl, rfl, ?_, ?_⟩
    · intro ctx v hv; subst hv; rfl
    · intro ctx f hf; subst hf; rfl
  · intro reg reg' call impl h1 h2
    simp [resolveMacro, dynOverride, h1, h2, executeMacro]
  · intro reg call impl h1 h2 h3
    have hn : 0 < call.args.length := List.length_pos.mpr h3
    have harity : arityOk (dynDef call.name impl) call.args.length = false := by
      simpa [arityOk, dynDef] using List.ne_nil_of_length_pos hn
    have hstrict : (dynDef call.name impl).strictArgs = true := rfl
    have hexec : executeMacro reg call (some (dynDef call.name impl)) =
        ([], .error ⟨"MacroRuntimeError", true, arityMsg call.name⟩) := by
      unfold executeMacro
      simp [harity, hstrict]
    simp [resolveMacro, dynOverride, h1, h2, hexec]

/-- C5 witness: `{{dyn::extra}}` with `dynamicMacros = { dyn: 'OK' }` is
left raw with an arity warning even though the registry is non-empty. -/
theorem c5_dynamic_macro_override_witness :
    resolveMacro testRegistry dynCall =
      ([.warn "dyn" (arityMsg "dyn")], braceWrap "dyn::extra".data) :=
  c5_dynamic_macro_override.2.2 testRegistry dynCall (.value "OK".data)
    (by rfl) (by decide) (by decide)

/-- C6: `resolveMacro` never propagates an error out of `executeMacro` (in
this model every thrown error surfaces as an `Except.error` value, and
`resolveMacro` is total on it): an error tagged `isMacroRuntimeError` or
named `MacroRuntimeError` is logged as a runtime warning, any other error
is logged as an internal error, and in both cases the invocation is
returned raw. -/
theorem c6_resolver_catches_errors :
    ∀ (reg : List MacroDef) (call : MacroCall) (evs : List MEvent) (e : MErr),
    call.name ≠ "" →
    ((dynOverride call.env call.name).isSome = true ∨ hasMacro reg call.name = true) →
    executeMacro reg call (dynOverride call.env call.name) = (evs, .error e) →
    resolveMacro reg call =
      (evs ++ [if e.errName = "MacroRuntimeError" ∨ e.isMacroRuntimeError = true
               then MEvent.warn call.name e.msg
               else MEvent.err call.name
                 ("Macro \"" ++ call.name ++ "\" internal execution error.")],
       braceWrap call.rawInner) := by
  intro reg call evs e h1 h2 h3
  have hguard : ¬ ((dynOverride call.env call.name).isNone = true ∧
      hasMacro reg call.name = false) := by
    rintro ⟨ha, hb⟩
    rcases h2 with h | h
    · rw [Option.isNone_iff_eq_none] at ha
      rw [ha] at h
      simp at h
    · rw [h] at hb
      simp at hb
  simp only [resolveMacro, if_neg h1, if_neg hguard, h3]
  by_cases hrt : (e.errName = "MacroRuntimeError" ∨ e.isMacroRuntimeError = true)
  · rcases hrt with h | h <;> simp [h]
  · push_neg at hrt
    simp [hrt.1, hrt.2]

/-- C6 witness: a handler throwing a plain `TypeError` is logged as an
internal error and the invocation `{{boom}}` is preserved raw. -/
theorem c6_resolver_catches_errors_witness :
    resolveMacro [boomDef] boomCall =
      ([MEvent.run "boom"] ++
        [MEvent.err "boom" "Macro \"boom\" internal execution error."],
       braceWrap "boom".data) := by
  have h := c6_resolver_catches_errors [boomDef] boomCall
    [MEvent.run "boom"] ⟨"TypeError", false, "boom"⟩
    (by decide) (Or.inr (by decide)) (by rfl)
  simpa using h

theorem startsWithCI_append_self (p x : List Char) :
    startsWithCI p (p ++ x) = true := by
  induction p with
  | nil => rfl
  | cons c ps ih => simp [startsWithCI, ih]

theorem nlMunch_flatten (us : List (List Char)) (rest : List Char)
    (h : ∀ u ∈ us, u = ['\n'] ∨ u = ['\r', '\n']) :
    nlMunch (us.flatten ++ rest) =
      ((nlMunch rest).1 + us.flatten.length, (nlMunch rest).2) := by
  induction us with
  | nil => simp
  | cons u us ih =>
    have hu := h u (by simp)
    have hrest : ∀ v ∈ us, v = ['\n'] ∨ v = ['\r', '\n'] := fun v hv => h v (by simp [hv])
    rcases hu with hu | hu <;> subst hu
    · simp only [List.flatten_cons, List.singleton_append, List.cons_append,
        List.nil_append]
      rw [nlMunch.eq_def]
      simp [ih hrest]
      omega
    · simp only [List.flatten_cons, List.cons_append, List.nil_append]
      rw [nlMunch.eq_def]
      simp only [reduceIte]
      rw [nlMunch.eq_def]
      simp [ih hrest]
      omega

theorem nlMunch_trimLit (x : List Char) :
    nlMunch (trimLit ++ x) = (0, trimLit ++ x) := rfl

theorem trimRemove_match (f : Nat) (us1 us2 : List (List Char)) (b : List Char)
    (h1 : ∀ u ∈ us1, u = ['\n'] ∨ u = ['\r', '\n'])
    (h2 : ∀ u ∈ us2, u = ['\n'] ∨ u = ['\r', '\n'])
    (hb : nlMunch b = (0, b)) :
    trimRemove (f + 1) (us1.flatten ++ trimLit ++ us2.flatten ++ b)
      = trimRemove f b := by
  have key : nlMunch (trimLit ++ us2.flatten ++ b) =
      (0, trimLit ++ us2.flatten ++ b) := by
    rw [List.append_assoc]
    exact nlMunch_trimLit _
  have hm1 : nlMunch (us1.flatten ++ (trimLit ++ us2.flatten ++ b)) =
      (us1.flatten.length, trimLit ++ us2.flatten ++ b) := by
    rw [nlMunch_flatten us1 _ h1, key]
    simp
  have hm2 : nlMunch (us2.flatten ++ b) = (us2.flatten.length, b) := by
    rw [nlMunch_flatten us2 _ h2, hb]
    simp
  have hsw : startsWithCI trimLit (trimLit ++ us2.flatten ++ b) = true := by
    have h := startsWithCI_append_self trimLit (us2.flatten ++ b)
    rw [List.append_assoc]
    exact h
  have hdrop : (trimLit ++ us2.flatten ++ b).drop 8 = us2.flatten ++ b := by
    have h8 : trimLit.length = 8 := rfl
    simpa [h8] using List.drop_left trimLit (us2.flatten ++ b)
  simp only [trimRemove]
  rw [show us1.flatten ++ trimLit ++ us2.flatten ++ b
      = us1.flatten ++ (trimLit ++ us2.flatten ++ b) by simp]
  rw [hm1]
  simp only [hsw, if_pos]
  rw [hdrop, hm2]

/-- C7: the registered `trim` handler survives the walk by returning the
literal `{{trim}}`; post-processing then removes the token together with
the entire immediately adjacent `(\r?\n)*` runs on both sides (stated for
an occurrence at the scan position, with the runs given as arbitrary
sequences of `\n` / `\r\n` units and the continuation not extending the
trailing run, and the scan continuing globally on the rest); in
particular `foo\n\n{{trim}}\n\nbar` evaluates to `foobar`. -/
theorem c7_trim_removal :
    (∀ ctx, trimDef.handler ctx = .ok trimLit) ∧
    (∀ (f : Nat) (us1 us2 : List (List Char)) (b : List Char),
      (∀ u ∈ us1, u = ['\n'] ∨ u = ['\r', '\n']) →
      (∀ u ∈ us2, u = ['\n'] ∨ u = ['\r', '\n']) →
      nlMunch b = (0, b) →
      trimRemove (f + 1) (us1.flatten ++ trimLit ++ us2.flatten ++ b)
        = trimRemove f b) ∧
    (evaluate "foo\n\n\x7b\x7btrim\x7d\x7d\n\nbar".data testEnv testRegistry).2
      = "foobar".data := by
  refine ⟨fun _ => rfl, trimRemove_match, by decide⟩

/-- C7 witness: the general removal applied to `\n\n{{trim}}\r\n` followed
by `bar`. -/
theorem c7_trim_removal_witness :
    trimRemove 9 ([['\n'], ['\n']].flatten ++ trimLit ++ [['\r', '\n']].flatten
        ++ "bar".data)
      = trimRemove 8 "bar".data :=
  c7_trim_removal.2.1 8 [['\n'], ['\n']] [['\r', '\n']] "bar".data
    (by simp) (by simp) (by rfl)

theorem argLoopSliceRanges_lb (entries : List (MacroNode × (Nat × Nat)))
    (hwf : ∀ e ∈ entries, e.2.1 ≤ e.2.2) :
    ∀ cursor, ∀ r ∈ argLoopSliceRanges cursor entries, cursor ≤ r.1 := by
  induction entries with
  | nil => intro cursor r hr; simp [argLoopSliceRanges] at hr
  | cons e rest ih =>
    intro cursor r hr
    have hwf' : ∀ x ∈ rest, x.2.1 ≤ x.2.2 := fun x hx => hwf x (by simp [hx])
    by_cases hc : e.2.1 < cursor
    · rw [argLoopSliceRanges, if_pos hc] at hr
      exact ih hwf' cursor r hr
    · rw [argLoopSliceRanges, if_neg hc] at hr
      rcases List.mem_cons.mp hr with h | h
      · subst h; exact le_refl _
      · have := ih hwf' (e.2.2 + 1) r h
        have he := hwf e (by simp)
        omega

theorem argLoop_slice_props (entries : List (MacroNode × (Nat × Nat)))
    (hwf : ∀ e ∈ entries, e.2.1 ≤ e.2.2) :
    ∀ cursor,
      (∀ r ∈ argLoopSliceRanges cursor entries, cursor ≤ r.1 ∧ r.1 ≤ r.2) ∧
      List.Pairwise (fun r1 r2 : Nat × Nat => r1.2 ≤ r2.1)
        (argLoopSliceRanges cursor entries) := by
  induction entries with
  | nil => intro cursor; simp [argLoopSliceRanges]
  | cons e rest ih =>
    intro cursor
    have hwf' : ∀ x ∈ rest, x.2.1 ≤ x.2.2 := fun x hx => hwf x (by simp [hx])
    have ihr := ih hwf'
    by_cases hc : e.2.1 < cursor
    · rw [argLoopSliceRanges, if_pos hc]
      exact ihr cursor
    · rw [argLoopSliceRanges, if_neg hc]
      have he := hwf e (by simp)
      constructor
      · intro r hr
        rcases List.mem_cons.mp hr with h | h
        · subst h; omega
        · have h1 := argLoopSliceRanges_lb rest hwf' (e.2.2 + 1) r h
          have h2 := ((ihr (e.2.2 + 1)).1) r h
          omega
      · refine List.Pairwise.cons ?_ ((ihr (e.2.2 + 1)).2)
        intro r hr
        have h1 := argLoopSliceRanges_lb rest hwf' (e.2.2 + 1) r hr
        simp only
        omega

theorem evalArgLoop_chunks (evalM : MacroNode → List MEvent × List Char)
    (text : List Char) (entries : List (MacroNode × (Nat × Nat))) :
    ∀ cursor, (evalArgLoop evalM text cursor entries).2.1 =
      (argLoopChunks evalM text cursor entries).flatten := by
  induction entries with
  | nil => intro cursor; simp [evalArgLoop, argLoopChunks]
  | cons e rest ih =>
    intro cursor
    by_cases hc : e.2.1 < cursor
    · rw [evalArgLoop, argLoopChunks]
      simp only [if_pos hc]
      exact ih cursor
    · rw [evalArgLoop, argLoopChunks]
      simp only [if_neg hc]
      obtain ⟨evs, v⟩ := evalM e.1
      simp only
      rw [ih (e.2.2 + 1)]
      simp

/-- C9: while evaluating an argument subtree, a nested invocation whose
start offset lies before the cursor is dropped — the loop's result (its
trace, output and final cursor) is the same as without the entry, so it is
neither evaluated nor emitted and evaluation continues from the current
cursor; the output decomposes into the emitted chunks, and (for entries
with well-formed ranges) the verbatim slices the loop takes all have
start ≤ end, start at or after the cursor, and are pairwise disjoint in
ascending order, so each character position of the argument contributes to
the result at most once. -/
theorem c9_argument_offset_safety :
    (∀ (evalM : MacroNode → List MEvent × List Char) (text : List Char)
       (cursor : Nat) (e : MacroNode × (Nat × Nat))
       (rest : List (MacroNode × (Nat × Nat))),
      e.2.1 < cursor →
      evalArgLoop evalM text cursor (e :: rest) =
        evalArgLoop evalM text cursor rest) ∧
    (∀ (evalM : MacroNode → List MEvent × List Char) (text : List Char)
       (entries : List (MacroNode × (Nat × Nat))) (cursor : Nat),
      (evalArgLoop evalM text cursor entries).2.1 =
        (argLoopChunks evalM text cursor entries).flatten) ∧
    (∀ (entries : List (MacroNode × (Nat × Nat))),
      (∀ e ∈ entries, e.2.1 ≤ e.2.2) → ∀ cursor,
      (∀ r ∈ argLoopSliceRanges cursor entries, cursor ≤ r.1 ∧ r.1 ≤ r.2) ∧
      List.Pairwise (fun r1 r2 : Nat × Nat => r1.2 ≤ r2.1)
        (argLoopSliceRanges cursor entries)) := by
  refine ⟨?_, ?_, ?_⟩
  · intro evalM text cursor e rest h
    rw [evalArgLoop, if_pos h]
  · intro evalM text entries cursor
    exact evalArgLoop_chunks evalM text entries cursor
  · intro entries hwf cursor
    exact argLoop_slice_props entries hwf cursor

/-- C9 witness: with the first entry covering `[0, 4]`, a second entry
starting at `3` (an overlap as produced by recovery) is dropped, and the
slice ranges of a well-formed entry list are well-formed and disjoint. -/
theorem c9_argument_offset_safety_witness :
    evalArgLoop (fun _ => ([], ['X'])) "abcdefgh".data 5
        [(MacroNode.mk none none [] none, (3, 6))] =
      evalArgLoop (fun _ => ([], ['X'])) "abcdefgh".data 5 [] ∧
    (∀ r ∈ argLoopSliceRanges 0
        [(MacroNode.mk none none [] none, (2, 4)),
         (MacroNode.mk none none [] none, (6, 7))], 0 ≤ r.1 ∧ r.1 ≤ r.2) :=
  ⟨c9_argument_offset_safety.1 _ _ 5 _ _ (by decide),
   (c9_argument_offset_safety.2.2 _ (by simp) 0).1⟩

theorem executeMacro_no_resolve (reg : List MacroDef) (call : MacroCall)
    (ov : Option MacroDef) :
    ∀ ev ∈ (executeMacro reg call ov).1, ev.isResolve = false := by
  intro ev hmem
  unfold executeMacro at hmem
  split at hmem
  · simp at hmem
  next d _ =>
    have hevs1 : ∀ x ∈ (if arityOk d call.args.length = true then ([] : List MEvent)
        else [MEvent.warn call.name (arityMsg call.name)]), MEvent.isResolve x = false := by
      intro x hx
      split at hx
      · simp at hx
      · simp at hx; subst hx; rfl
    by_cases ha : (arityOk d call.args.length = false ∧ d.strictArgs = true)
    · rw [if_pos ha] at hmem
      simp at hmem
    · rw [if_neg ha] at hmem
      simp only [] at hmem
      rcases hft : firstTypeFailure d (applyDefaults d call.args) with _ | tn <;>
        rw [hft] at hmem
      · rcases List.mem_append.mp hmem with h | h
        · exact hevs1 ev h
        · simp at h; subst h; rfl
      · rw [apply_ite Prod.fst] at hmem
        split at hmem
        · exact hevs1 ev hmem
        · simp only [List.append_assoc, List.mem_append] at hmem
          rcases hmem with h | h
          · exact hevs1 ev h
          · simp at h
            rcases h with h | h <;> subst h <;> rfl

theorem resolveMacro_no_resolve (reg : List MacroDef) (call : MacroCall) :
    ∀ ev ∈ (resolveMacro reg call).1, ev.isResolve = false := by
  intro ev hmem
  unfold resolveMacro at hmem
  split at hmem
  · simp at hmem
  · simp only [] at hmem
    split at hmem
    · simp at hmem
    · have hex := executeMacro_no_resolve reg call (dynOverride call.env call.name)
      split at hmem
      next evs result heq =>
        rw [heq] at hex
        split at hmem
        · exact hex ev hmem
        · simp only [List.mem_append] at hmem
          rcases hmem with h | h
          · exact hex ev h
          · simp at h; subst h; rfl
      next evs e heq =>
        rw [heq] at hex
        rw [apply_ite Prod.fst] at hmem
        split at hmem <;>
          (simp only [List.mem_append] at hmem
           rcases hmem with h | h
           · exact hex ev h
           · simp at h; subst h; rfl)

instance : IsTotal DocItem ItemLeR :=
  ⟨by intro a b; simp [ItemLeR, itemLe]; omega⟩

instance : IsTrans DocItem ItemLeR :=
  ⟨by intro a b c hab hbc; simp [ItemLeR, itemLe] at *; omega⟩

theorem collectDocumentItems_sorted (fuel : Nat) (cst : DocCst) :
    List.Pairwise ItemLeR (collectDocumentItems fuel cst) := by
  unfold collectDocumentItems
  exact List.sorted_insertionSort ItemLeR _

theorem evalDocLoop_trace (evalM : MacroNode → List MEvent × List Char)
    (text : List Char) (items : List DocItem) :
    ∀ cursor, (evalDocLoop evalM text cursor items).1 =
      (items.map (docItemTrace evalM)).flatten := by
  induction items with
  | nil => intro cursor; simp [evalDocLoop]
  | cons it rest ih =>
    intro cursor
    cases it with
    | plaintext s e tok => simp [evalDocLoop, docItemTrace, ih]
    | macroItem s e node => simp [evalDocLoop, docItemTrace, ih]


theorem evaluateMacroNode_trace (f : Nat) (text : List Char) (env : MacroEnv)
    (reg : List MacroDef) (m : MacroNode) :
    (evaluateMacroNode (f + 1) text env reg m).1 =
      (m.args.map (fun a =>
        (evaluateArgumentNode (evaluateMacroNode f text env reg) text a).1)).flatten
      ++ [.resolve (macroNodeName m) (getMacroRange m).1 (getMacroRange m).2]
      ++ (resolveMacro reg (walkerCallOf
            (fun a => evaluateArgumentNode (evaluateMacroNode f text env reg) text a)
            text env m)).1 := rfl

/-- C4: evaluation order — (i) the document items the walker processes are
sorted ascending by (start offset, end offset), so top-level invocations
are resolved left to right; (ii) the document trace is exactly the
concatenation of the per-item traces in that sorted order; (iii) the trace
of one invocation is the concatenation of its argument subtrees' traces
(all nested invocations, evaluated inside-out), followed by the `resolve`
event for the enclosing invocation, followed by resolver-internal events
none of which is a `resolve` — hence every nested invocation is fully
evaluated before the enclosing invocation's resolver callback runs. -/
theorem c4_evaluation_order :
    (∀ (fuel : Nat) (cst : DocCst),
      List.Pairwise ItemLeR (collectDocumentItems fuel cst)) ∧
    (∀ (fuel : Nat) (text : List Char) (env : MacroEnv) (reg : List MacroDef)
       (cst : DocCst),
      (evaluateDocument fuel text env reg cst).1 =
        ((collectDocumentItems fuel cst).map
          (docItemTrace (evaluateMacroNode fuel text env reg))).flatten) ∧
    (∀ (f : Nat) (text : List Char) (env : MacroEnv) (reg : List MacroDef)
       (m : MacroNode),
      (evaluateMacroNode (f + 1) text env reg m).1 =
        (m.args.map (fun a =>
          (evaluateArgumentNode (evaluateMacroNode f text env reg) text a).1)).flatten
        ++ [.resolve (macroNodeName m) (getMacroRange m).1 (getMacroRange m).2]
        ++ (resolveMacro reg (walkerCallOf
              (fun a => evaluateArgumentNode (evaluateMacroNode f text env reg) text a)
              text env m)).1 ∧
      ∀ ev ∈ (resolveMacro reg (walkerCallOf
              (fun a => evaluateArgumentNode (evaluateMacroNode f text env reg) text a)
              text env m)).1, ev.isResolve = false) := by
  refine ⟨collectDocumentItems_sorted, ?_, ?_⟩
  · intro fuel text env reg cst
    unfold evaluateDocument
    simp only []
    by_cases hempty : (collectDocumentItems fuel cst).isEmpty = true
    · rw [if_pos hempty]
      rw [List.isEmpty_iff] at hempty
      rw [hempty]
      rfl
    · rw [if_neg hempty]
      exact evalDocLoop_trace _ text _ 0
  · intro f text env reg m
    exact ⟨evaluateMacroNode_trace f text env reg m,
      fun ev h => resolveMacro_no_resolve reg _ ev h⟩

/-- C4 witness: the invocation-level trace shape applied to the concrete
`{{user}}` node at offsets 0–7. -/
theorem c4_evaluation_order_witness :
    (evaluateMacroNode 3 "\x7b\x7buser\x7d\x7d".data testEnv testRegistry
        (MacroNode.mk (some ⟨0, 1, "\x7b\x7b", false⟩) (some ⟨2, 5, "user", false⟩)
          [] (some ⟨6, 7, "\x7d\x7d", false⟩))).1 =
      ([] : List (List MEvent)).flatten
      ++ [.resolve "user" 0 7]
      ++ (resolveMacro testRegistry (walkerCallOf
            (fun a => evaluateArgumentNode
              (evaluateMacroNode 2 "\x7b\x7buser\x7d\x7d".data testEnv testRegistry)
              "\x7b\x7buser\x7d\x7d".data a)
            "\x7b\x7buser\x7d\x7d".data testEnv
            (MacroNode.mk (some ⟨0, 1, "\x7b\x7b", false⟩) (some ⟨2, 5, "user", false⟩)
              [] (some ⟨6, 7, "\x7d\x7d", false⟩)))).1 := by
  have h := (c4_evaluation_order.2.2 2 "\x7b\x7buser\x7d\x7d".data testEnv testRegistry
    (MacroNode.mk (some ⟨0, 1, "\x7b\x7b", false⟩) (some ⟨2, 5, "user", false⟩)
      [] (some ⟨6, 7, "\x7d\x7d", false⟩))).1
  simpa using h

theorem arityOk_iff_amended (d : MacroDef) (n : Nat) :
    arityOk d n = true ↔ amendedArityFormula d n := by
  unfold arityOk amendedArityFormula
  rcases hls : d.listSpec with _ | ⟨lmin, lmax⟩
  · simp
  · rcases lmax with _ | M
    · simp only []
      simp [Bool.and_eq_true, decide_eq_true_eq]
      by_cases h0 : 0 < lmin
      · simp [h0]
        omega
      · simp [h0]
        omega
    · simp only []
      simp [Bool.and_eq_true, decide_eq_true_eq]
      by_cases h0 : 0 < lmin
      · simp [h0]
        omega
      · simp [h0]
        omega

theorem resolveMacro_events_prefix (reg : List MacroDef) (call : MacroCall)
    (evs : List MEvent) (out : Except MErr (List Char))
    (h1 : call.name ≠ "")
    (h2 : ¬ ((dynOverride call.env call.name).isNone = true ∧
        hasMacro reg call.name = false))
    (h3 : executeMacro reg call (dynOverride call.env call.name) = (evs, out)) :
    ∃ extra, (resolveMacro reg call).1 = evs ++ extra := by
  unfold resolveMacro
  simp only [if_neg h1, if_neg h2, h3]
  rcases out with e | result
  · rw [apply_ite Prod.fst]
    split
    · exact ⟨_, rfl⟩
    · exact ⟨_, rfl⟩
  · rcases hpp : call.env.postProcess result with e2 | post
    · refine ⟨[MEvent.err call.name
        ("Macro \"" ++ call.name ++ "\" postProcess function failed.")], ?_⟩
      simp [hpp]
    · exact ⟨[], by simp [hpp]⟩

/-- C3 counterexample: the e2e test's `test-list-bounds` definition
(`unnamedArgs: 1`, `list: {min: 1, max: 2}`) invoked with `n = 1`
(`{{test-list-bounds::base}}`).  The claim's formula —
`required ≤ n ≤ positional + listMax` with the `listMin` bound applying
only when `n > positional` — declares this invocation arity-valid, yet the
engine (modelled per that repository test's expectation) emits a runtime
arity warning and leaves the invocation raw, without running the
handler. -/
theorem c3_arity_counterexample :
    claimArityFormula tlbDef 1 ∧
    resolveMacro [tlbDef] tlbCall =
      ([.warn "test-list-bounds" (arityMsg "test-list-bounds")],
       braceWrap "test-list-bounds::base".data) := by
  constructor
  · refine ⟨by simp [tlbDef], ?_, ?_⟩
    · simp [tlbDef, claimArityFormula]
    · intro h
      simp [tlbDef] at h
  · rfl

/-- C3 (amended): the invocation is arity-valid iff
`required ≤ n ≤ positional + listMax` and additionally
`n ≥ positional + listMin` whenever the definition has a list with
`min > 0` (the repository e2e test forces the list minimum to bind even
when `n = positional`, unlike the claim's `n > positional` guard); when
invalid, a runtime warning is emitted, and under `strictArgs` the
invocation is returned raw without the handler running. -/
theorem c3_arity_validation :
    (∀ (d : MacroDef) (n : Nat), arityOk d n = true ↔ amendedArityFormula d n) ∧
    (∀ (reg : List MacroDef) (call : MacroCall) (d : MacroDef),
      dynOverride call.env call.name = none →
      getMacro reg call.name = some d →
      arityOk d call.args.length = false →
      call.name ≠ "" →
      (d.strictArgs = true →
        resolveMacro reg call =
          ([.warn call.name (arityMsg call.name)], braceWrap call.rawInner)) ∧
      (d.strictArgs = false →
        ∃ rest, (resolveMacro reg call).1 =
          .warn call.name (arityMsg call.name) :: rest)) := by
  refine ⟨arityOk_iff_amended, ?_⟩
  intro reg call d hdyn hget harity hname
  have hhas : hasMacro reg call.name = true := by
    simp [hasMacro, hget]
  have hguard : ¬ ((dynOverride call.env call.name).isNone = true ∧
      hasMacro reg call.name = false) := by
    rintro ⟨_, hb⟩; rw [hhas] at hb; simp at hb
  constructor
  · intro hstrict
    have hexec : executeMacro reg call (dynOverride call.env call.name) =
        ([], .error ⟨"MacroRuntimeError", true, arityMsg call.name⟩) := by
      unfold executeMacro
      rw [hdyn]
      simp only [hget, harity, hstrict]
      simp
    simp only [resolveMacro, if_neg hname, if_neg hguard, hexec]
    simp
  · intro hstrict
    have hexec : ∃ tail outcome,
        executeMacro reg call (dynOverride call.env call.name) =
          (MEvent.warn call.name (arityMsg call.name) :: tail, outcome) := by
      unfold executeMacro
      rw [hdyn]
      simp only [hget, harity, hstrict]
      simp only [Bool.false_eq_true, and_false, if_false, if_neg]
      rcases hft : firstTypeFailure d (applyDefaults d call.args) with _ | tn
      · simp [hft, harity]
      · simp [hft, harity, hstrict]
    obtain ⟨tail, outcome, hexec⟩ := hexec
    obtain ⟨extra, hpre⟩ := resolveMacro_events_prefix reg call _ _ hname hguard hexec
    exact ⟨tail ++ extra, by rw [hpre]; simp⟩

/-- C3 witness: the amended behavior applied to the second invalid e2e
invocation, `{{test-list-bounds::base::x::y::z}}` (n = 4 exceeds
`positional + listMax = 3`): raw with one arity warning. -/
theorem c3_arity_validation_witness :
    resolveMacro [tlbDef]
      { name := "test-list-bounds",
        args := ["base".data, "x".data, "y".data, "z".data],
        rawInner := "test-list-bounds::base::x::y::z".data,
        rawWithBraces := braceWrap "test-list-bounds::base::x::y::z".data,
        rangeStart := 0, rangeStop := 34, env := testEnv } =
      ([.warn "test-list-bounds" (arityMsg "test-list-bounds")],
       braceWrap "test-list-bounds::base::x::y::z".data) :=
  (c3_arity_validation.2 [tlbDef] _ tlbDef (by rfl) (by rfl) (by rfl)
    (by decide)).1 (by rfl)

theorem containsCI_cons (pat : List Char) (c : Char) (r : List Char)
    (h : containsCI pat (c :: r) = false) :
    startsWithCI pat (c :: r) = false ∧ containsCI pat r = false := by
  rw [containsCI, Bool.or_eq_false_iff] at h
  exact h

theorem suffix_startsWithCI_false (pat s : List Char)
    (h : containsCI pat s = false) :
    ∀ t, t <:+ s → startsWithCI pat t = false := by
  induction s with
  | nil =>
    intro t ht
    rw [List.suffix_nil] at ht
    subst ht
    simpa [containsCI] using h
  | cons c r ih =>
    intro t ht
    obtain ⟨h1, h2⟩ := containsCI_cons pat c r h
    rcases List.suffix_cons_iff.mp ht with h | h
    · subst h; exact h1
    · exact ih h2 t h

theorem startsWithCI_mono (p q s : List Char)
    (h : startsWithCI (p ++ q) s = true) : startsWithCI p s = true := by
  induction p generalizing s with
  | nil => rfl
  | cons c ps ih =>
    cases s with
    | nil => simp [startsWithCI] at h
    | cons d ds =>
      rw [List.cons_append, startsWithCI, Bool.and_eq_true] at h
      rw [startsWithCI, Bool.and_eq_true]
      exact ⟨h.1, ih ds h.2⟩

theorem isOpenAt_startsWithCI (t : List Char) (h : isOpenAt t = true) :
    startsWithCI ['{', '{'] t = true := by
  cases t with
  | nil => simp [isOpenAt] at h
  | cons c1 t1 =>
    cases t1 with
    | nil => simp [isOpenAt] at h
    | cons c2 r =>
      rw [isOpenAt, Bool.and_eq_true, Bool.and_eq_true] at h
      obtain ⟨⟨hc1, hc2⟩, _⟩ := h
      rw [decide_eq_true_eq] at hc1 hc2
      subst hc1; subst hc2
      simp [startsWithCI]

theorem noOpen_of_containsCI (s : List Char)
    (h : containsCI ['{', '{'] s = false) :
    ∀ t, t <:+ s → isOpenAt t = false := by
  intro t ht
  by_contra hc
  rw [Bool.not_eq_false] at hc
  have := isOpenAt_startsWithCI t hc
  rw [suffix_startsWithCI_false _ _ h t ht] at this
  exact Bool.false_ne_true this

theorem takePlain_all (s : List Char)
    (h : ∀ t, t <:+ s → isOpenAt t = false) :
    ∀ pos, takePlain s pos = (s, [], pos + s.length) := by
  induction s with
  | nil => intro pos; simp [takePlain]
  | cons c r ih =>
    intro pos
    have hh : isOpenAt (c :: r) = false := h (c :: r) (List.suffix_refl _)
    have hr : ∀ t, t <:+ r → isOpenAt t = false := fun t ht =>
      h t (ht.trans (List.suffix_cons c r))
    rw [takePlain, if_neg (by simp [hh]), ih hr (pos + 1)]
    simp
    omega

theorem parseItems_noOpen (f : Nat) (s : List Char) (pos : Nat)
    (h : ∀ t, t <:+ s → isOpenAt t = false) (hne : s ≠ []) :
    parseItems (f + 2) s pos =
      ([⟨pos, pos + s.length - 1, s.asString, false⟩], []) := by
  have hh : isOpenAt s = false := h s (List.suffix_refl _)
  cases s with
  | nil => exact absurd rfl hne
  | cons c r =>
    rw [parseItems]
    simp only [if_neg (by simp [hh] : ¬ isOpenAt (c :: r) = true)]
    rw [takePlain_all (c :: r) h pos]
    simp only []
    rw [parseItems]
    simp

theorem replaceAllCI_id (pat rep : List Char) :
    ∀ (fuel : Nat) (s : List Char), containsCI pat s = false →
      replaceAllCI fuel pat rep s = s := by
  intro fuel
  induction fuel with
  | zero => intro s _; rfl
  | succ f ih =>
    intro s hs
    cases s with
    | nil => rfl
    | cons c r =>
      obtain ⟨h1, h2⟩ := containsCI_cons pat c r hs
      rw [replaceAllCI, if_neg (by simp [h1]), ih r h2]

theorem tryTimeMatch_none (t : List Char)
    (h : startsWithCI ['{', '{'] t = false) : tryTimeMatch t = none := by
  have : startsWithCI "\x7b\x7btime_".data t = false := by
    by_contra hc
    rw [Bool.not_eq_false] at hc
    have := startsWithCI_mono "\x7b\x7b".data "time_".data t
      (by rw [show "\x7b\x7b".data ++ "time_".data = "\x7b\x7btime_".data from rfl]; exact hc)
    rw [h] at this
    exact Bool.false_ne_true this
  rw [tryTimeMatch, if_neg (by simp [this])]

theorem timeRewrite_id (fuel : Nat) :
    ∀ (s : List Char), containsCI ['{', '{'] s = false →
      timeRewrite fuel s = s := by
  induction fuel with
  | zero => intro s _; rfl
  | succ f ih =>
    intro s hs
    cases s with
    | nil => rfl
    | cons c r =>
      obtain ⟨h1, h2⟩ := containsCI_cons _ c r hs
      rw [timeRewrite, tryTimeMatch_none _ h1, ih r h2]

theorem runPreProcessors_id (s : List Char)
    (hob : containsCI ['{', '{'] s = false)
    (hu : containsCI "<user>".data s = false)
    (hb : containsCI "<bot>".data s = false)
    (hc : containsCI "<char>".data s = false)
    (hg : containsCI "<group>".data s = false)
    (hcig : containsCI "<charifnotgroup>".data s = false) :
    runPreProcessors s = s := by
  unfold runPreProcessors
  simp only []
  rw [timeRewrite_id _ s hob,
      replaceAllCI_id _ _ _ s hu,
      replaceAllCI_id _ _ _ s hb,
      replaceAllCI_id _ _ _ s hc,
      replaceAllCI_id _ _ _ s hg,
      replaceAllCI_id _ _ _ s hcig]


theorem unescapeBraces_id (s : List Char)
    (h1 : containsCI ['\\', '{'] s = false)
    (h2 : containsCI ['\\', '}'] s = false) :
    unescapeBraces s = s := by
  induction s using unescapeBraces.induct with
  | case1 => rfl
  | case2 => rfl
  | case3 c r hbr ih =>
    exfalso
    rcases (by simpa using hbr : c = '{' ∨ c = '}') with hc | hc <;> subst hc
    · have := (containsCI_cons _ _ _ h1).1
      simp [startsWithCI] at this
    · have := (containsCI_cons _ _ _ h2).1
      simp [startsWithCI] at this
  | case4 c r hbr ih =>
    have t1 := (containsCI_cons _ _ _ h1).2
    have t2 := (containsCI_cons _ _ _ h2).2
    rw [unescapeBraces]
    simp only [if_pos rfl]
    rw [if_neg hbr, ih t1 t2]
    simp
  | case5 c r hne ih =>
    have t1 := (containsCI_cons _ _ _ h1).2
    have t2 := (containsCI_cons _ _ _ h2).2
    cases r with
    | nil =>
      rw [unescapeBraces, if_neg hne]
      rfl
    | cons c2 r2 =>
      rw [unescapeBraces, if_neg hne, ih t1 t2]

theorem nlMunch_suffix (s : List Char) : (nlMunch s).2 <:+ s := by
  induction s using nlMunch.induct with
  | case1 => simp [nlMunch]
  | case2 r ih =>
    rw [nlMunch.eq_def]
    simp only [reduceIte]
    exact ih.trans (List.suffix_cons '\n' r)
  | case3 rest h ih =>
    rw [nlMunch.eq_def]
    simp only [reduceIte, reduceCtorEq, if_neg h]
    exact ih.trans ((List.suffix_cons '\n' rest).trans
      (List.suffix_cons '\r' ('\n' :: rest)))
  | case4 sign rest h1 h2 =>
    rw [nlMunch.eq_def]
    simp [h1, h2]
  | case5 h =>
    rw [nlMunch.eq_def]
    simp [h]
  | case6 c r h1 h2 =>
    rw [nlMunch.eq_def]
    simp [h1, h2]

theorem trimLit_decomp : trimLit = ['{', '{'] ++ "trim\x7d\x7d".data := rfl

theorem trimRemove_id (fuel : Nat) :
    ∀ s : List Char, containsCI ['{', '{'] s = false →
      trimRemove fuel s = s := by
  induction fuel with
  | zero => intro s _; rfl
  | succ f ih =>
    intro s hs
    have hsuf : (nlMunch s).2 <:+ s := nlMunch_suffix s
    have hsw : startsWithCI trimLit (nlMunch s).2 = false := by
      by_contra hc
      rw [Bool.not_eq_false] at hc
      have hmono := startsWithCI_mono ['{', '{'] "trim\x7d\x7d".data (nlMunch s).2
        (by rw [← trimLit_decomp]; exact hc)
      rw [suffix_startsWithCI_false _ _ hs _ hsuf] at hmono
      exact Bool.false_ne_true hmono
    rw [trimRemove.eq_def]
    simp only [hsw, Bool.false_eq_true, if_false]
    cases s with
    | nil => rfl
    | cons c r =>
      have ht := (containsCI_cons _ _ _ hs).2
      show c :: trimRemove f r = c :: r
      rw [ih r ht]

theorem runPostProcessors_id (s : List Char)
    (hob : containsCI ['{', '{'] s = false)
    (he1 : containsCI ['\\', '{'] s = false)
    (he2 : containsCI ['\\', '}'] s = false) :
    runPostProcessors s = s := by
  unfold runPostProcessors
  simp only []
  rw [unescapeBraces_id s he1 he2, trimRemove_id _ s hob]

/-- C8 counterexample: the input `\{` contains no `{{` sequence, yet
`evaluate` returns `{` — the brace-unescaping post-processor rewrites it —
so the output differs from the input. -/
theorem c8_counterexample :
    (evaluate "\\\x7b".data testEnv testRegistry).2 = ['{'] ∧
    (evaluate "\\\x7b".data testEnv testRegistry).2 ≠ "\\\x7b".data :=
  ⟨by decide, by decide⟩

/-- C8 (amended): for every input containing no `{{` sequence, no `\{` or
`\}` escape, and no case-insensitive legacy marker (`<USER>`, `<BOT>`,
`<CHAR>`, `<GROUP>`, `<CHARIFNOTGROUP>`), `evaluate(input, env)` returns
the input unchanged (and emits no event), for every environment and
registry. -/
theorem c8_plain_input_identity :
    ∀ (input : List Char) (env : MacroEnv) (reg : List MacroDef),
    containsCI ['{', '{'] input = false →
    containsCI ['\\', '{'] input = false →
    containsCI ['\\', '}'] input = false →
    containsCI "<user>".data input = false →
    containsCI "<bot>".data input = false →
    containsCI "<char>".data input = false →
    containsCI "<group>".data input = false →
    containsCI "<charifnotgroup>".data input = false →
    evaluate input env reg = ([], input) := by
  intro input env reg hob he1 he2 hu hb hc hg hcig
  by_cases hemp : input = []
  · subst hemp; rfl
  · have hpre : runPreProcessors input = input :=
      runPreProcessors_id input hob hu hb hc hg hcig
    have hnoopen := noOpen_of_containsCI input hob
    have hlen : 0 < input.length := List.length_pos.mpr hemp
    have hpd : parseDocument input =
        ⟨[⟨0, input.length - 1, input.asString, false⟩], []⟩ := by
      unfold parseDocument
      rw [show 4 * input.length + 16 = (4 * input.length + 14) + 2 from by omega]
      rw [parseItems_noOpen _ input 0 hnoopen hemp]
      simp
    have hcoll : collectDocumentItems (4 * input.length + 16)
        (⟨[⟨0, input.length - 1, input.asString, false⟩], []⟩ : DocCst) =
        [.plaintext 0 (input.length - 1) ⟨0, input.length - 1, input.asString, false⟩] := by
      unfold collectDocumentItems
      simp [List.insertionSort, List.orderedInsert]
    have hwalk : evaluateDocument (4 * input.length + 16) input env reg
        (⟨[⟨0, input.length - 1, input.asString, false⟩], []⟩ : DocCst) = ([], input) := by
      unfold evaluateDocument
      simp only [hcoll]
      rw [if_neg (by simp)]
      rw [evalDocLoop]
      simp only [DocItem.startOffset]
      rw [if_neg (by omega)]
      rw [evalDocLoop]
      rw [if_neg (by omega)]
      have h1 : input.length - 1 + 1 = input.length := by omega
      rw [h1]
      simp [jsSlice, List.take_length]
    unfold evaluate
    rw [if_neg (by simp [hemp])]
    simp only [hpre, hpd, hwalk]
    rw [runPostProcessors_id input hob he1 he2]

/-- C8 witness: the identity applied to the e2e no-macro input. -/
theorem c8_plain_input_identity_witness :
    evaluate "Hello world, no macros here.".data testEnv testRegistry =
      ([], "Hello world, no macros here.".data) :=
  c8_plain_input_identity "Hello world, no macros here.".data testEnv testRegistry
    (by decide) (by decide) (by decide) (by decide) (by decide) (by decide)
    (by decide) (by decide)

/-- Membership in the optional plaintext item of a token. -/
theorem mem_optPtItem {o : Option MacroTok} {it : DocItem} :
    it ∈ optPtItem o ↔
      ∃ t, o = some t ∧ it = .plaintext t.tokStart t.tokStop t := by
  cases o <;> simp [optPtItem, eq_comm]

/-- The delimiter tokens of a well-formed node are present. -/
theorem WFDepth.dest {d : Nat} {m : MacroNode} (h : WFDepth d m) :
    (∃ s, m.startTok = some s) ∧ (∃ c, m.closeTok = some c) := by
  cases h with
  | mk _ _ h1 h2 _ => exact ⟨h1, h2⟩

/-- Characterization of the flattening of an incomplete invocation: with
enough fuel, over well-formed nodes, the produced items are exactly the
plaintext items of `FlatTokIn` tokens and the macro items of
`PreservedNested` nodes. -/
theorem flattenNode_flat_iff :
    ∀ (fuel d : Nat) (m : MacroNode), WFDepth d m → d ≤ fuel →
    ∀ it : DocItem, it ∈ flattenNode fuel true m ↔ FlatSpec m it := by
  intro fuel
  induction fuel with
  | zero =>
    intro d m hwf hle
    cases hwf with
    | mk d0 _ h1 h2 h3 => exact absurd hle (Nat.not_succ_le_zero d0)
  | succ fuel ih =>
    intro d m hwf hle it
    obtain ⟨d0, hst, hcl, hnest⟩ :
        ∃ d0, (∃ s, m.startTok = some s) ∧ (∃ c, m.closeTok = some c) ∧
          (d0 ≤ fuel ∧ ∀ a ∈ m.args, ∀ n ∈ a.2, WFDepth d0 n) := by
      cases hwf with
      | mk d0 _ h1 h2 h3 => exact ⟨d0, h1, h2, by omega, h3⟩
    obtain ⟨hd0, hnest⟩ := hnest
    constructor
    · intro h
      simp only [flattenNode, if_pos, List.append_nil, List.mem_append,
        List.mem_flatMap, List.mem_map] at h
      rcases h with (hs | hi) | ⟨a, ha, ⟨t, htk, rfl⟩ | ⟨n, hn, hgn⟩⟩
      · rcases mem_optPtItem.mp hs with ⟨t, ht, rfl⟩
        exact Or.inl ⟨t, FlatTokIn.start ht, rfl⟩
      · rcases mem_optPtItem.mp hi with ⟨t, ht, rfl⟩
        exact Or.inl ⟨t, FlatTokIn.ident ht, rfl⟩
      · exact Or.inl ⟨t, FlatTokIn.argTok ha htk, rfl⟩
      · have hwfn := hnest a ha n hn
        obtain ⟨⟨ns, hns⟩, ⟨nc, hnc⟩⟩ := hwfn.dest
        rw [hns, hnc] at hgn
        have hgn' : it ∈ (if nc.recovery = false then
            [DocItem.macroItem (getMacroRange n).1 (getMacroRange n).2 n]
            else flattenNode fuel true n) := hgn
        by_cases hrec : nc.recovery = false
        · rw [if_pos hrec] at hgn'
          simp only [List.mem_singleton] at hgn'
          subst hgn'
          refine Or.inr ⟨n, PreservedNested.here ha hn ?_, rfl⟩
          rw [hnc]
          exact hrec
        · rw [if_neg hrec] at hgn'
          have hrecT : isRecoveryToken n.closeTok = true := by
            rw [hnc]
            rcases Bool.eq_false_or_eq_true nc.recovery with hb | hb
            · exact hb
            · exact absurd hb hrec
          rcases (ih d0 n hwfn hd0 it).mp hgn' with ⟨t, ht, rfl⟩ | ⟨n2, hp, rfl⟩
          · exact Or.inl ⟨t, FlatTokIn.nested ha hn hrecT ht, rfl⟩
          · exact Or.inr ⟨n2, PreservedNested.deeper ha hn hrecT hp, rfl⟩
    · intro h
      simp only [flattenNode, if_pos, List.append_nil, List.mem_append,
        List.mem_flatMap, List.mem_map]
      rcases h with ⟨t, ht, rfl⟩ | ⟨n, hp, rfl⟩
      · cases ht with
        | start hst =>
          exact Or.inl (Or.inl (mem_optPtItem.mpr ⟨t, hst, rfl⟩))
        | ident hid =>
          exact Or.inl (Or.inr (mem_optPtItem.mpr ⟨t, hid, rfl⟩))
        | argTok ha htk =>
          rename_i a
          exact Or.inr ⟨a, ha, Or.inl ⟨t, htk, rfl⟩⟩
        | nested ha hn hrecT ht' =>
          rename_i a n
          refine Or.inr ⟨a, ha, Or.inr ⟨n, hn, ?_⟩⟩
          have hwfn := hnest a ha n hn
          obtain ⟨⟨ns, hns⟩, ⟨nc, hnc⟩⟩ := hwfn.dest
          rw [hns, hnc]
          show DocItem.plaintext t.tokStart t.tokStop t ∈
            (if nc.recovery = false then
              [DocItem.macroItem (getMacroRange n).1 (getMacroRange n).2 n]
              else flattenNode fuel true n)
          rw [hnc] at hrecT
          have hrecB : nc.recovery = true := hrecT
          rw [if_neg (by simp [hrecB])]
          exact (ih d0 n hwfn hd0 _).mpr (Or.inl ⟨t, ht', rfl⟩)
      · cases hp with
        | here ha hn hrecF =>
          rename_i a
          refine Or.inr ⟨a, ha, Or.inr ⟨n, hn, ?_⟩⟩
          have hwfn := hnest a ha n hn
          obtain ⟨⟨ns, hns⟩, ⟨nc, hnc⟩⟩ := hwfn.dest
          rw [hns, hnc]
          show DocItem.macroItem (getMacroRange n).1 (getMacroRange n).2 n ∈
            (if nc.recovery = false then
              [DocItem.macroItem (getMacroRange n).1 (getMacroRange n).2 n]
              else flattenNode fuel true n)
          rw [hnc] at hrecF
          have hrecB : nc.recovery = false := hrecF
          rw [if_pos hrecB]
          exact List.mem_singleton.mpr rfl
        | deeper ha hn' hrecT hp' =>
          rename_i a n0
          refine Or.inr ⟨a, ha, Or.inr ⟨n0, hn', ?_⟩⟩
          have hwfn := hnest a ha n0 hn'
          obtain ⟨⟨ns, hns⟩, ⟨nc, hnc⟩⟩ := hwfn.dest
          rw [hns, hnc]
          show DocItem.macroItem (getMacroRange n).1 (getMacroRange n).2 n ∈
            (if nc.recovery = false then
              [DocItem.macroItem (getMacroRange n0).1 (getMacroRange n0).2 n0]
              else flattenNode fuel true n0)
          rw [hnc] at hrecT
          have hrecB : nc.recovery = true := hrecT
          rw [if_neg (by simp [hrecB])]
          exact (ih d0 n0 hwfn hd0 _).mpr (Or.inr ⟨n, hp', rfl⟩)

/-- C1: for every well-formed invocation node whose closing delimiter is
recovery-inserted, the walker flattens it back to plaintext items — its own
tokens, those of its arguments, and recursively those of nested incomplete
invocations (`FlatTokIn`) — while preserving exactly the complete nested
invocations as invocation items (`PreservedNested`); and in the e2e
scenario `Test \x7b\x7b hehe \x7b\x7buser\x7d\x7d`, the parser synthesizes
a recovery-marked close for the sole top-level invocation and the document
evaluates to `Test \x7b\x7b hehe User` with `names.user = 'User'`. -/
theorem c1_incomplete_flatten :
    (∀ (fuel d : Nat) (m : MacroNode), WFDepth d m →
        isRecoveryToken m.closeTok = true → d ≤ fuel →
        ∀ it : DocItem, it ∈ flattenIncompleteMacro fuel m ↔ FlatSpec m it) ∧
    (parseDocument "Test \x7b\x7b hehe \x7b\x7buser\x7d\x7d".data).macros.all
        (fun m => isRecoveryToken m.closeTok) = true ∧
    (parseDocument "Test \x7b\x7b hehe \x7b\x7buser\x7d\x7d".data).macros.length = 1 ∧
    (evaluate "Test \x7b\x7b hehe \x7b\x7buser\x7d\x7d".data testEnv testRegistry).2 =
      "Test \x7b\x7b hehe User".data := by
  refine ⟨?_, by decide, by decide, by decide⟩
  intro fuel d m hwf _ hle it
  exact flattenNode_flat_iff fuel d m hwf hle it

/-- C1 witness: the characterization applied to the concrete incomplete
node of that scenario, at the preserved nested `\x7b\x7buser\x7d\x7d`
item. -/
theorem c1_incomplete_flatten_witness :
    WFDepth 2 c1Node ∧ isRecoveryToken c1Node.closeTok = true ∧ 2 ≤ 2 ∧
    (DocItem.macroItem 13 20 c1Inner ∈ flattenIncompleteMacro 2 c1Node ↔
      FlatSpec c1Node (DocItem.macroItem 13 20 c1Inner)) := by
  have hinner : WFDepth 1 c1Inner :=
    WFDepth.mk 0 c1Inner ⟨_, rfl⟩ ⟨_, rfl⟩ (by
      intro a ha
      simp [c1Inner, MacroNode.args] at ha)
  have houter : WFDepth 2 c1Node :=
    WFDepth.mk 1 c1Node ⟨_, rfl⟩ ⟨_, rfl⟩ (by
      intro a ha n hn
      simp only [c1Node, MacroNode.args, List.mem_singleton] at ha
      subst ha
      simp only [List.mem_singleton] at hn
      subst hn
      exact hinner)
  exact ⟨houter, by decide, by decide,
    c1_incomplete_flatten.1 2 2 c1Node houter (by decide) (by decide) _⟩
